import Mathlib

/-! The plugin registry of GitBook, `gitbook/lib/plugins/registry.js`.

A shallow embedding of the plugin registry of GitBook
(`src/gitbook/lib/plugins/registry.js`) and the properties of its
identifier normaliser, version resolver, install orchestrator and
installed-set scanner.

JavaScript strings are Lean `String`s; the string primitives the source
uses (`indexOf`, `replace`, `join`) are defined on the character lists.
The search pattern of every call in the source is the ASCII constant
`PLUGIN_PREFIX`, for which matching on characters and matching on UTF-16
code units find the same occurrences.
-/

namespace Registry

/-! ## JavaScript string primitives -/

/-- Embeds `String.prototype.indexOf` on character lists, scanning from position `i`:
the position of the leftmost occurrence of `pat`, or `-1`. -/
def indexOfFrom (pat : List Char) : List Char → Nat → Int
  | [], i => if pat.isPrefixOf [] then (i : Int) else -1
  | c :: cs, i => if pat.isPrefixOf (c :: cs) then (i : Int) else indexOfFrom pat cs (i + 1)

/-- Embeds `s.indexOf(pat)`. -/
def indexOf (s pat : String) : Int := indexOfFrom pat.data s.data 0

/-- Embeds `String.prototype.replace` with a string pattern, on character lists: the
leftmost occurrence of `pat` is replaced by `rep`, nothing else changes. -/
def replaceFirst (pat rep : List Char) : List Char → List Char
  | [] => if pat.isPrefixOf [] then rep else []
  | c :: cs =>
    if pat.isPrefixOf (c :: cs) then rep ++ (c :: cs).drop pat.length
    else c :: replaceFirst pat rep cs

/-- Embeds `s.replace(pat, rep)` for a string `pat` and a replacement without `$`. -/
def replace (s pat rep : String) : String := ⟨replaceFirst pat.data rep.data s.data⟩

/-! ## Identifier normaliser -/

/-- Embeds `var PLUGIN_PREFIX = 'gitbook-plugin-';` -/
def PLUGIN_PREFIX : String := "gitbook-plugin-"

/-- Embeds `npmId(name)`: the absolute name of the plugin (the one on NPM). -/
def npmId (name : String) : String :=
  if indexOf name PLUGIN_PREFIX = 0 then name
  else String.join [PLUGIN_PREFIX, name]

/-- Embeds `pluginId(name)`: the plugin ID (the one on GitBook). -/
def pluginId (name : String) : String := replace name PLUGIN_PREFIX ""

/-- Embeds `validateId(name)`, read as a truth value: `name && name.indexOf(PLUGIN_PREFIX) === 0`. -/
def validateId (name : String) : Bool :=
  name != "" && decide (indexOf name PLUGIN_PREFIX = 0)

/-! ## Version resolver -/

/-- The `engines` object of one published version; `gitbook` is the declared
compatibility range, `none` when the key is missing. -/
structure Engines where
  gitbook : Option String
  deriving DecidableEq, Repr

/-- What the registry answers for one published version (`npm view name@* engines`):
the `engines` object, `none` when the package declares none. -/
structure Declaration where
  engines : Option Engines
  deriving DecidableEq, Repr

/-- The object `{version: v[0], gitbook: (v[1].engines || {}).gitbook}` built by
the `map` step of `resolveVersion`. -/
structure Candidate where
  version : String
  gitbook : Option String
  deriving DecidableEq, Repr

/-- The `map` callback of `resolveVersion`, applied to one `[version, declaration]` pair. -/
def toCandidate (v : String × Declaration) : Candidate :=
  { version := v.1
    gitbook := (v.2.engines.getD { gitbook := none }).gitbook }

/-- The `filter` callback of `resolveVersion`:
`v.gitbook && gitbook.satisfies(v.gitbook)`, read as a truth value. The host
predicate is only consulted for a present, non-empty range. -/
def keepCandidate (satisfies : String → Bool) (v : Candidate) : Bool :=
  match v.gitbook with
  | none => false
  | some range => range != "" && satisfies range

/-- The `sort` comparator of `resolveVersion`:
`semver.lt(v1.version, v2.version) ? 1 : -1`; `lt` stands for `semver.lt`. -/
def compareCandidates (lt : String → String → Bool) (v1 v2 : Candidate) : Int :=
  if lt v1.version v2.version then 1 else -1

/-- Inner loop of the insertion sort behind `Array.prototype.sort`: `sorted` is
the already sorted part of the array read from right to left (`a[i-1]` first);
every `tmp` with `comparefn(tmp, element) > 0` is shifted one place to the
right and `element` is stored at the first place where the order is not
positive. The result is again read from right to left. -/
def insertElement {α : Type} (comparefn : α → α → Int) (element : α) : List α → List α
  | [] => [element]
  | tmp :: rest =>
    if comparefn tmp element > 0 then tmp :: insertElement comparefn element rest
    else element :: tmp :: rest

/-- Embeds `Array.prototype.sort(comparefn)` as the insertion sort of the engine:
elements are taken from left to right and inserted into the sorted part. -/
def arraySort {α : Type} (comparefn : α → α → Int) (a : List α) : List α :=
  (a.foldl (fun sorted element => insertElement comparefn element sorted) []).reverse

/-- The `then` callback of `resolveVersion`, applied to the registry answer
(the `[version, declaration]` pairs of the answered object, in key order):
`pairs → map → filter → sort → pluck('version') → first`. `none` is the
`undefined` that `first` gives on an empty array. -/
def selectVersion (satisfies : String → Bool) (lt : String → String → Bool)
    (versions : List (String × Declaration)) : Option String :=
  (((arraySort (compareCandidates lt)
      ((versions.map toCandidate).filter (keepCandidate satisfies))).map
        Candidate.version)).head?

/-- Precedence of plain `MAJOR.MINOR.PATCH` version strings: the numeric
fields of a version string, read left to right. -/
def versionFields : List Char → Nat → List Nat
  | [], acc => [acc]
  | c :: cs, acc =>
    if c = '.' then acc :: versionFields cs 0
    else versionFields cs (acc * 10 + (c.toNat - 48))

/-- The `(major, minor, patch)` triple of a plain version string. -/
def versionTriple (v : String) : Nat × Nat × Nat :=
  match versionFields v.data 0 with
  | [a, b, c] => (a, b, c)
  | _ => (0, 0, 0)

/-- Embeds `semver.lt` on plain `MAJOR.MINOR.PATCH` strings: major, then minor, then
patch, compared numerically. The resolver takes its precedence as a parameter;
this instance serves the concrete registries below. -/
def semverLt (v1 v2 : String) : Bool :=
  let a := versionTriple v1
  let b := versionTriple v2
  decide (a.1 < b.1 ∨ (a.1 = b.1 ∧ (a.2.1 < b.2.1 ∨ (a.2.1 = b.2.1 ∧ a.2.2 < b.2.2))))

/-! ## Effects: the project log, the npm client and the installer -/

/-- A JavaScript `Error` value: what a rejected promise carries. -/
structure JSError where
  message : String
  deriving DecidableEq, Repr

/-- The book (target project): its root directory. Its logging sink `book.log`
is the part of the effect trace tagged with the book. -/
structure Book where
  root : String
  deriving DecidableEq, Repr

/-- The `npmLoad` object handed to `npmi`. -/
structure NpmLoad where
  loglevel : String
  loaded : Bool
  prefixDir : String
  deriving DecidableEq, Repr

/-- The options object handed to `npmi`: `name`, `version`, `path`, `npmLoad`. -/
structure NpmiOptions where
  name : String
  version : String
  path : String
  npmLoad : NpmLoad
  deriving DecidableEq, Repr

/-- The observable effects of the module, in the order they happen. -/
inductive Effect where
  /-- Embeds `book.log.info.ln(args...)` -/
  | logInfoLn (book : Book) (args : List String)
  /-- Embeds `book.log.info.ok(args...)` -/
  | logInfoOk (book : Book) (args : List String)
  /-- Embeds `npm.load({silent: true, loglevel: 'silent'})` -/
  | npmLoad
  /-- Embeds `npm.commands.view(args, true)`: the registry query -/
  | npmView (args : List String)
  /-- Embeds `npmi(options)`: the installer -/
  | npmi (options : NpmiOptions)
  deriving DecidableEq, Repr

/-- The external collaborators: the outcome of `npm.load`, the registry query
`npm.commands.view`, the installer `npmi`, the host predicate
`gitbook.satisfies` and `semver.lt`. -/
structure Capabilities where
  npmLoad : Except JSError Unit
  npmView : List String → Except JSError (List (String × Declaration))
  npmi : NpmiOptions → Except JSError Unit
  satisfies : String → Bool
  lt : String → String → Bool

/-- The state a call runs in: the effects so far and the `_.memoize` cache of
`initNPM` (`none` until the first call). -/
structure World where
  trace : List Effect
  initNPM : Option (Except JSError Unit)

/-- A promise-returning function: it settles to a value or to an error and
leaves a new state. -/
abbrev Promise (α : Type) : Type := World → Except JSError α × World

/-- Appends one effect to the trace. -/
def perform (e : Effect) (w : World) : World :=
  { w with trace := w.trace ++ [e] }

/-- Embeds `initNPM()`: `_.memoize` of the call to `npm.load`; the first call loads and
caches the returned promise, every later call answers from the cache. -/
def initNPM (caps : Capabilities) : Promise Unit := fun w =>
  match w.initNPM with
  | some r => (r, w)
  | none => (caps.npmLoad, { trace := w.trace ++ [Effect.npmLoad], initNPM := some caps.npmLoad })

/-- Embeds `resolveVersion(plugin)`: the latest version for a plugin. -/
def resolveVersion (caps : Capabilities) (plugin : String) : Promise (Option String) := fun w =>
  let npnName := npmId plugin
  match initNPM caps w with
  | (Except.error e, w1) => (Except.error e, w1)
  | (Except.ok _, w1) =>
    let args := [npnName ++ "@*", "engines"]
    let w2 := perform (Effect.npmView args) w1
    match caps.npmView args with
    | Except.error e => (Except.error e, w2)
    | Except.ok versions => (Except.ok (selectVersion caps.satisfies caps.lt versions), w2)

/-- JavaScript truthiness of an optional string: `undefined` and `''` are falsy. -/
def truthy : Option String → Bool
  | none => false
  | some s => s != ""

/-- The first `then` callback of `installPlugin`: the given version when it is
truthy, otherwise a log line and the resolver. -/
def chooseVersion (caps : Capabilities) (book : Book) (plugin : String)
    (version : Option String) : Promise (Option String) := fun w =>
  if truthy version then (Except.ok version, w)
  else
    resolveVersion caps plugin
      (perform (Effect.logInfoLn book
        ["No version specified, resolve plugin \"" ++ plugin ++ "\""]) w)

/-- The options `installPlugin` hands to `npmi`. -/
def npmiOptions (book : Book) (npnName version : String) : NpmiOptions :=
  { name := npnName
    version := version
    path := book.root
    npmLoad := { loglevel := "silent", loaded := true, prefixDir := book.root } }

/-- The second `then` callback of `installPlugin`: throws when the version is
falsy, otherwise logs and calls `npmi`. -/
def installChosen (caps : Capabilities) (book : Book) (plugin npnName : String)
    (version : Option String) : Promise Unit := fun w =>
  match version with
  | none =>
    (Except.error (JSError.mk ("Found no satisfactory version for plugin \"" ++ plugin ++ "\"")), w)
  | some v =>
    if v == "" then
      (Except.error (JSError.mk ("Found no satisfactory version for plugin \"" ++ plugin ++ "\"")), w)
    else
      let w1 := perform (Effect.logInfoLn book
        ["install plugin \"" ++ plugin ++ "\" from npm (" ++ npnName ++ ") with version", v]) w
      let options := npmiOptions book npnName v
      (caps.npmi options, perform (Effect.npmi options) w1)

/-- Embeds `installPlugin(book, plugin, version)`: install a plugin in a book. A
rejected step skips the `then` callbacks after it. -/
def installPlugin (caps : Capabilities) (book : Book) (plugin : String)
    (version : Option String) : Promise Unit := fun w =>
  let w0 := perform (Effect.logInfoLn book ["installing plugin", plugin]) w
  let npnName := npmId plugin
  match chooseVersion caps book plugin version w0 with
  | (Except.error e, w1) => (Except.error e, w1)
  | (Except.ok chosen, w1) =>
    match installChosen caps book plugin npnName chosen w1 with
    | (Except.error e, w2) => (Except.error e, w2)
    | (Except.ok _, w2) =>
      (Except.ok (),
        perform (Effect.logInfoOk book ["plugin \"" ++ plugin ++ "\" installed with success"]) w2)

/-! ## Installed-set scanner -/

/-- A node of the tree `read-installed` answers: `name`, `version`, `realPath`,
`depth` and the `dependencies` in declaration order. -/
inductive Pkg where
  | mk (name version realPath : String) (depth : Nat) (dependencies : List Pkg)

/-- Embeds `pkg.name` -/
def Pkg.name : Pkg → String
  | Pkg.mk n _ _ _ _ => n

/-- Embeds `pkg.depth` -/
def Pkg.depth : Pkg → Nat
  | Pkg.mk _ _ _ d _ => d

/-- Embeds `pkg.dependencies` -/
def Pkg.dependencies : Pkg → List Pkg
  | Pkg.mk _ _ _ _ ds => ds

/-- The object `{name, version, path, depth}` pushed on `results`. -/
structure InstalledPlugin where
  name : String
  version : String
  path : String
  depth : Nat
  deriving DecidableEq, Repr

/-- The record `onPackage` pushes for a package: its name goes through `pluginId`. -/
def Pkg.record : Pkg → InstalledPlugin
  | Pkg.mk n v p d _ => { name := pluginId n, version := v, path := p, depth := d }

mutual
/-- Embeds `onPackage(pkg, isRoot)` of `listInstalled`, with the array `results` passed
in and out. -/
def onPackage : Pkg → Bool → List InstalledPlugin → List InstalledPlugin
  | Pkg.mk name version realPath depth dependencies, isRoot, results =>
    if !validateId name then
      if !isRoot then results
      else eachDependency dependencies results
    else
      eachDependency dependencies
        (results ++ [{ name := pluginId name, version := version, path := realPath, depth := depth }])
/-- Embeds `_.each(pkg.dependencies, function(dep) { onPackage(dep); })`: `isRoot` is
`undefined`, hence falsy, in these calls. -/
def eachDependency : List Pkg → List InstalledPlugin → List InstalledPlugin
  | [], results => results
  | dep :: rest, results => eachDependency rest (onPackage dep false results)
end

/-- The loop of lodash `baseUniq` with an iteratee: `seen` holds the computed
keys of the values kept so far, `result` the values kept so far. -/
def baseUniq {α κ : Type} [DecidableEq κ] (iteratee : α → κ) :
    List α → List κ → List α → List α
  | [], _, result => result
  | value :: rest, seen, result =>
    if iteratee value ∈ seen then baseUniq iteratee rest seen result
    else baseUniq iteratee rest (seen ++ [iteratee value]) (result ++ [value])

/-- Embeds `_.uniq(results, 'name')`. -/
def uniqByName (results : List InstalledPlugin) : List InstalledPlugin :=
  baseUniq InstalledPlugin.name results [] []

/-- The `then` callback of `listInstalled`, applied to the tree `data` that
`read-installed` answered: `onPackage(data, true); return _.uniq(results, 'name')`. -/
def scanTree (data : Pkg) : List InstalledPlugin :=
  uniqByName (onPackage data true [])

/-- Embeds `listInstalled(folder)`: `readInstalled` stands for the tree inspector; its
failure is the failure of the whole listing. -/
def listInstalled (readInstalled : String → Except JSError Pkg) (folder : String) :
    Except JSError (List InstalledPlugin) :=
  match readInstalled folder with
  | Except.error e => Except.error e
  | Except.ok data => Except.ok (scanTree data)

/-- The `spread` callback of `listPlugins`: `plugins.concat(defaultPlugins)`,
then `_.uniq(results, 'name')`. -/
def mergePlugins (defaultPlugins plugins : List InstalledPlugin) : List InstalledPlugin :=
  uniqByName (plugins ++ defaultPlugins)

/-- Embeds `listPlugins(book)`: `gitbookRoot` is `path.resolve(__dirname, '../..')`;
`Promise.all` fails with the first failure. -/
def listPlugins (readInstalled : String → Except JSError Pkg) (gitbookRoot : String)
    (book : Book) : Except JSError (List InstalledPlugin) :=
  match listInstalled readInstalled gitbookRoot with
  | Except.error e => Except.error e
  | Except.ok defaultPlugins =>
    match listInstalled readInstalled book.root with
    | Except.error e => Except.error e
    | Except.ok plugins => Except.ok (mergePlugins defaultPlugins plugins)

/-- A string contains the namespace prefix when the prefix occurs in it as a
contiguous block, at any position. -/
def ContainsPrefix (s : String) : Prop := PLUGIN_PREFIX.data <:+: s.data

/-! ## Notions the properties are stated with -/

/-- A declaration carries a non-empty gitbook compatibility range that the
host predicate accepts. -/
def Accepted (satisfies : String → Bool) (d : Declaration) : Prop :=
  ∃ range, d.engines = some ⟨some range⟩ ∧ range ≠ "" ∧ satisfies range = true

/-- A declaration carries no compatibility range: it has no `engines` object,
or an `engines` object without a `gitbook` key. -/
def NoRange (d : Declaration) : Prop :=
  d.engines = none ∨ d.engines = some ⟨none⟩

/-- A call to the registry client: `npm.load` or the registry query. -/
def Effect.isRegistryCall : Effect → Bool
  | Effect.npmLoad => true
  | Effect.npmView _ => true
  | _ => false

/-- A call to the installer `npmi`. -/
def Effect.isInstallerCall : Effect → Bool
  | Effect.npmi _ => true
  | _ => false

/-- A success (`ok`) notification on some book's logging sink. -/
def Effect.isSuccessNote : Effect → Bool
  | Effect.logInfoOk _ _ => true
  | _ => false

/-- The message of the error `installPlugin` throws when no version was found. -/
def noSatisfactoryVersion (plugin : String) : JSError :=
  ⟨"Found no satisfactory version for plugin \"" ++ plugin ++ "\""⟩

/-- The node reached from `pkg` along `path`, a list of child positions in
declaration order; the empty path is `pkg` itself. -/
def Pkg.nodeAt : Pkg → List Nat → Option Pkg
  | pkg, [] => some pkg
  | pkg, i :: rest =>
    match pkg.dependencies[i]? with
    | some dep => dep.nodeAt rest
    | none => none

mutual
/-- The paths of all nodes of a tree in depth-first declaration order
(pre-order): the node itself, then the subtree of each dependency in turn. -/
def Pkg.paths : Pkg → List (List Nat)
  | Pkg.mk _ _ _ _ dependencies => [] :: pathsFrom dependencies 0
/-- The paths into a sequence of dependencies whose first member is child `i`. -/
def pathsFrom : List Pkg → Nat → List (List Nat)
  | [], _ => []
  | dep :: rest, i => (dep.paths.map (List.cons i)) ++ pathsFrom rest (i + 1)
end

/-- The node at `path` exists and its name is a plugin package name. -/
def isPluginAt (root : Pkg) (path : List Nat) : Bool :=
  match root.nodeAt path with
  | some pkg => validateId pkg.name
  | none => false

/-- The node at `path` has a plugin package name and so has each of its
ancestors (the nodes at the proper initial segments of `path`); with
`exceptRoot` the root, the node at the empty segment, is exempt as an ancestor. -/
def admittedFrom (exceptRoot : Bool) (root : Pkg) (path : List Nat) : Bool :=
  isPluginAt root path &&
    (List.range path.length).all
      (fun k => (exceptRoot && k == 0) || isPluginAt root (path.take k))

/-- The nodes to record in a scan from `root`: own name a plugin package name,
and every ancestor other than the root too. -/
def admitted (root : Pkg) (path : List Nat) : Bool := admittedFrom true root path

/-- The record of the node at `path`. -/
def recordAt (root : Pkg) (path : List Nat) : Option InstalledPlugin :=
  (root.nodeAt path).map Pkg.record

/-- The records of the admitted nodes, in depth-first declaration order. -/
def recordedFrom (exceptRoot : Bool) (root : Pkg) : List InstalledPlugin :=
  (root.paths.filter (admittedFrom exceptRoot root)).filterMap (recordAt root)

/-- The discovery sequence of a scan: the records of the admitted nodes of the
tree in depth-first declaration order, before deduplication. -/
def discovered (root : Pkg) : List InstalledPlugin :=
  (root.paths.filter (admitted root)).filterMap (recordAt root)

/-- Deduplication by name keeping the first occurrence: the head is kept and
every later record of the same name is dropped. -/
def keepFirstByName : List InstalledPlugin → List InstalledPlugin
  | [] => []
  | r :: rest => r :: (keepFirstByName rest).filter (fun r2 => r2.name != r.name)

/-- The discovery sequences of a sequence of dependency subtrees, one after
the other; inside a dependency no node is exempt. -/
def recordedAll : List Pkg → List InstalledPlugin
  | [] => []
  | dep :: rest => recordedFrom false dep ++ recordedAll rest

mutual
/-- Every child's `depth` is its parent's `depth` plus one, throughout the tree. -/
def consistentDepths : Pkg → Bool
  | Pkg.mk _ _ _ depth dependencies => allAtDepth (depth + 1) dependencies
/-- Each package of the sequence has depth `d` and consistent depths below it. -/
def allAtDepth : Nat → List Pkg → Bool
  | _, [] => true
  | d, dep :: rest => dep.depth == d && consistentDepths dep && allAtDepth d rest
end

/-- A registry that knows one plugin, `gitbook-plugin-foo`, whose only published
version declares no compatibility range; loading and installing succeed. -/
def quietRegistry : Capabilities :=
  { npmLoad := Except.ok ()
    npmView := fun _ => Except.ok [("1.0.0", ⟨none⟩)]
    npmi := fun _ => Except.ok ()
    satisfies := fun range => range == "*"
    lt := semverLt }

/-- A registry whose plugin versions `1.0.0` and `1.1.0` both accept every
host, with an installer that fails with `EACCES`. -/
def failingInstaller : Capabilities :=
  { npmLoad := Except.ok ()
    npmView := fun _ => Except.ok [("1.0.0", ⟨some ⟨some "*"⟩⟩), ("1.1.0", ⟨some ⟨some "*"⟩⟩)]
    npmi := fun _ => Except.error ⟨"EACCES"⟩
    satisfies := fun range => range == "*"
    lt := semverLt }

/-- A fresh process: nothing has happened and `initNPM` has not run. -/
def freshWorld : World := { trace := [], initNPM := none }

/-- The tree `root -> [A (plugin), B (not a plugin) -> [C (plugin)]]`. -/
def prunedTree : Pkg :=
  Pkg.mk "book" "0.0.0" "/book" 0
    [Pkg.mk "gitbook-plugin-a" "1.0.0" "/book/node_modules/gitbook-plugin-a" 1 [],
     Pkg.mk "b" "1.0.0" "/book/node_modules/b" 1
       [Pkg.mk "gitbook-plugin-c" "1.0.0"
          "/book/node_modules/b/node_modules/gitbook-plugin-c" 2 []]]

/-- A tree with consistent depths in which the plugin package
`gitbook-plugin-foo` is installed twice: below `gitbook-plugin-a` at depth 2,
and directly below the root at depth 1, declared after `gitbook-plugin-a`. -/
def nestedFirstTree : Pkg :=
  Pkg.mk "book" "0.0.0" "/book" 0
    [Pkg.mk "gitbook-plugin-a" "1.0.0" "/book/node_modules/gitbook-plugin-a" 1
       [Pkg.mk "gitbook-plugin-foo" "1.0.0"
          "/book/node_modules/gitbook-plugin-a/node_modules/gitbook-plugin-foo" 2 []],
     Pkg.mk "gitbook-plugin-foo" "2.0.0" "/book/node_modules/gitbook-plugin-foo" 1 []]

/-- A string begins with the namespace prefix. -/
def StartsWithPrefix (s : String) : Prop := PLUGIN_PREFIX.data <+: s.data

/-- The number of positions of a character list at which `pat` occurs. -/
def countOccurrences (pat : List Char) : List Char → Nat
  | [] => if pat.isPrefixOf [] then 1 else 0
  | c :: cs => (if pat.isPrefixOf (c :: cs) then 1 else 0) + countOccurrences pat cs

/-- The number of occurrences of the namespace prefix in a string. -/
def prefixOccurrences (s : String) : Nat := countOccurrences PLUGIN_PREFIX.data s.data

/-- The version core of a version string: what stands before the build
metadata, which begins at the first `+`. -/
def versionCore (v : List Char) : List Char := v.takeWhile (fun c => c != '+')

/-- Embeds `semver.lt` on `MAJOR.MINOR.PATCH+BUILD` strings: the version cores
are compared, build metadata is ignored in precedence. -/
def semverLtBuild (v1 v2 : String) : Bool :=
  semverLt ⟨versionCore v1.data⟩ ⟨versionCore v2.data⟩

/-- A registry answer with two published versions that differ only in build
metadata; both accept every host. -/
def buildTwins : List (String × Declaration) :=
  [("1.0.0+a", ⟨some ⟨some "*"⟩⟩), ("1.0.0+b", ⟨some ⟨some "*"⟩⟩)]

/-- The answer `buildTwins` enumerated in the other order. -/
def buildTwinsReversed : List (String × Declaration) :=
  [("1.0.0+b", ⟨some ⟨some "*"⟩⟩), ("1.0.0+a", ⟨some ⟨some "*"⟩⟩)]

/-- A tree whose root depends on a package named exactly like the namespace
prefix and on a package whose name carries the prefix twice. -/
def oddNamesTree : Pkg :=
  Pkg.mk "book" "0.0.0" "/book" 0
    [Pkg.mk "gitbook-plugin-" "1.0.0" "/book/node_modules/gitbook-plugin-" 1 [],
     Pkg.mk "gitbook-plugin-gitbook-plugin-foo" "1.0.0"
       "/book/node_modules/gitbook-plugin-gitbook-plugin-foo" 1 []]

/-- A tree whose root is itself a plugin package, as when a listing is taken in
the directory of a plugin; its one dependency is not a plugin. -/
def pluginRootTree : Pkg :=
  Pkg.mk "gitbook-plugin-foo" "1.0.0" "/work/gitbook-plugin-foo" 0
    [Pkg.mk "lodash" "3.10.1" "/work/gitbook-plugin-foo/node_modules/lodash" 1 []]

/-- The tree of the bundled defaults directory `/gitbook`: the plugins `foo`
1.0.0 and `bar` 1.0.0 are installed in it. -/
def defaultsTree : Pkg :=
  Pkg.mk "gitbook" "2.0.0" "/gitbook" 0
    [Pkg.mk "gitbook-plugin-foo" "1.0.0" "/gitbook/node_modules/gitbook-plugin-foo" 1 [],
     Pkg.mk "gitbook-plugin-bar" "1.0.0" "/gitbook/node_modules/gitbook-plugin-bar" 1 []]

/-- The tree of the project directory `/book`: the plugins `foo` 2.0.0 and
`baz` 0.3.0 are installed in it. -/
def projectTree : Pkg :=
  Pkg.mk "book" "0.0.0" "/book" 0
    [Pkg.mk "gitbook-plugin-foo" "2.0.0" "/book/node_modules/gitbook-plugin-foo" 1 [],
     Pkg.mk "gitbook-plugin-baz" "0.3.0" "/book/node_modules/gitbook-plugin-baz" 1 []]

/-- A tree inspector that knows the two directories `/gitbook` and `/book` and
fails on every other folder. -/
def twoRoots (folder : String) : Except JSError Pkg :=
  if folder = "/gitbook" then Except.ok defaultsTree
  else if folder = "/book" then Except.ok projectTree
  else Except.error ⟨"ENOENT"⟩

/-- The records of the plugins installed in `defaultsTree`. -/
def defaultsRecords : List InstalledPlugin :=
  [⟨"foo", "1.0.0", "/gitbook/node_modules/gitbook-plugin-foo", 1⟩,
   ⟨"bar", "1.0.0", "/gitbook/node_modules/gitbook-plugin-bar", 1⟩]

/-- The records of the plugins installed in `projectTree`. -/
def projectRecords : List InstalledPlugin :=
  [⟨"foo", "2.0.0", "/book/node_modules/gitbook-plugin-foo", 1⟩,
   ⟨"baz", "0.3.0", "/book/node_modules/gitbook-plugin-baz", 1⟩]

/-! ## Properties of the identifier normaliser -/

theorem replaceFirst_append_left (pat rep s : List Char) (hpat : pat ≠ []) :
    replaceFirst pat rep (pat ++ s) = rep ++ s := by
  cases pat with
  | nil => exact absurd rfl hpat
  | cons c cs =>
    have hpre : (c :: cs).isPrefixOf (c :: (cs ++ s)) = true := by
      rw [List.isPrefixOf_iff_prefix]
      exact List.prefix_append (c :: cs) s
    show replaceFirst (c :: cs) rep (c :: (cs ++ s)) = rep ++ s
    rw [replaceFirst, if_pos hpre]
    have hdrop : (c :: (cs ++ s)).drop (c :: cs).length = s := by
      have : c :: (cs ++ s) = (c :: cs) ++ s := rfl
      rw [this, List.drop_left]
    rw [hdrop]

theorem join_pair (a b : String) : String.join [a, b] = a ++ b := by
  simp [String.join]

theorem npmId_of_not_leading (name : String) (h : indexOf name PLUGIN_PREFIX ≠ 0) :
    npmId name = PLUGIN_PREFIX ++ name := by
  unfold npmId
  rw [if_neg h, join_pair]

theorem pluginId_prefix_append (name : String) :
    pluginId (PLUGIN_PREFIX ++ name) = name := by
  unfold pluginId replace
  have hdata : (PLUGIN_PREFIX ++ name).data = PLUGIN_PREFIX.data ++ name.data := by
    simp
  rw [hdata, replaceFirst_append_left _ _ _ (by decide)]
  rfl

theorem indexOfFrom_absent_iff (pat s : List Char) (i : Nat) :
    indexOfFrom pat s i = -1 ↔ ¬ pat <:+: s := by
  induction s generalizing i with
  | nil =>
    unfold indexOfFrom
    by_cases h : pat.isPrefixOf [] = true
    · rw [if_pos h]
      have hp : pat <+: [] := List.isPrefixOf_iff_prefix.mp h
      constructor
      · intro hi; omega
      · intro hn; exact absurd hp.isInfix hn
    · rw [if_neg h]
      constructor
      · intro _ hinf
        have : pat = [] := List.infix_nil.mp hinf
        subst this
        exact h rfl
      · intro _; rfl
  | cons c cs ih =>
    unfold indexOfFrom
    by_cases h : pat.isPrefixOf (c :: cs) = true
    · rw [if_pos h]
      have hp : pat <+: c :: cs := List.isPrefixOf_iff_prefix.mp h
      constructor
      · intro hi; omega
      · intro hn; exact absurd hp.isInfix hn
    · rw [if_neg h, ih (i + 1), List.infix_cons_iff]
      have hp : ¬ pat <+: c :: cs := fun hp => h (List.isPrefixOf_iff_prefix.mpr hp)
      tauto

theorem indexOf_absent_iff (s : String) :
    indexOf s PLUGIN_PREFIX = -1 ↔ ¬ ContainsPrefix s :=
  indexOfFrom_absent_iff _ _ 0

/-- C10: for every valid plugin name `n` (non-empty, not containing the
namespace prefix), `pluginId (npmId n) = n`. -/
theorem pluginId_npmId_roundtrip (n : String) (_hne : n ≠ "")
    (hfree : ¬ ContainsPrefix n) : pluginId (npmId n) = n := by
  have hidx : indexOf n PLUGIN_PREFIX = -1 := (indexOf_absent_iff n).mpr hfree
  have h0 : indexOf n PLUGIN_PREFIX ≠ 0 := by rw [hidx]; decide
  rw [npmId_of_not_leading n h0, pluginId_prefix_append]

theorem pluginId_npmId_roundtrip_witness :
    "foo" ≠ "" ∧ ¬ ContainsPrefix "foo" ∧ pluginId (npmId "foo") = "foo" :=
  ⟨by decide, (indexOf_absent_iff "foo").mp (by decide),
    pluginId_npmId_roundtrip "foo" (by decide) ((indexOf_absent_iff "foo").mp (by decide))⟩

/-! ## Properties of the version resolver -/

theorem mem_insertElement {α : Type} (comparefn : α → α → Int) (element x : α) (sorted : List α) :
    x ∈ insertElement comparefn element sorted ↔ x = element ∨ x ∈ sorted := by
  induction sorted with
  | nil => simp [insertElement]
  | cons tmp rest ih =>
    unfold insertElement
    split
    · simp only [List.mem_cons, ih]; tauto
    · simp only [List.mem_cons]

theorem mem_foldl_insertElement {α : Type} (comparefn : α → α → Int) (x : α) (a sorted : List α) :
    x ∈ a.foldl (fun sorted element => insertElement comparefn element sorted) sorted
      ↔ x ∈ sorted ∨ x ∈ a := by
  induction a generalizing sorted with
  | nil => simp
  | cons e rest ih =>
    simp only [List.foldl_cons, ih, mem_insertElement, List.mem_cons]
    tauto

theorem mem_arraySort {α : Type} (comparefn : α → α → Int) (x : α) (a : List α) :
    x ∈ arraySort comparefn a ↔ x ∈ a := by
  unfold arraySort
  rw [List.mem_reverse, mem_foldl_insertElement]
  simp

theorem arraySort_eq_nil {α : Type} (comparefn : α → α → Int) (a : List α) :
    arraySort comparefn a = [] ↔ a = [] := by
  constructor
  · intro h
    cases a with
    | nil => rfl
    | cons x rest =>
      have hx : x ∈ arraySort comparefn (x :: rest) := (mem_arraySort _ _ _).mpr (by simp)
      rw [h] at hx
      exact absurd hx (List.not_mem_nil x)
  · intro h
    subst h
    rfl

/-- Read from right to left, the sorted part never has a version that is lower
than one to its right in the array. -/
theorem pairwise_insertElement (lt : String → String → Bool)
    (hasym : ∀ a b, lt a b = true → lt b a = false)
    (hneg : ∀ a b c, lt a b = false → lt b c = false → lt a c = false)
    (element : Candidate) (sorted : List Candidate)
    (h : sorted.Pairwise (fun x y => lt y.version x.version = false)) :
    (insertElement (compareCandidates lt) element sorted).Pairwise
      (fun x y => lt y.version x.version = false) := by
  induction sorted with
  | nil => simp [insertElement]
  | cons tmp rest ih =>
    rw [List.pairwise_cons] at h
    unfold insertElement
    by_cases hlt : lt tmp.version element.version = true
    · have hpos : compareCandidates lt tmp element > 0 := by
        simp [compareCandidates, hlt]
      rw [if_pos hpos, List.pairwise_cons]
      refine ⟨?_, ih h.2⟩
      intro y hy
      rcases (mem_insertElement _ _ _ _).mp hy with rfl | hy
      · exact hasym _ _ hlt
      · exact h.1 y hy
    · have hnpos : ¬ compareCandidates lt tmp element > 0 := by
        simp [compareCandidates, hlt]
      have hlt2 : lt tmp.version element.version = false := by
        simpa using hlt
      rw [if_neg hnpos, List.pairwise_cons, List.pairwise_cons]
      refine ⟨?_, h.1, h.2⟩
      intro y hy
      rcases List.mem_cons.mp hy with rfl | hy
      · exact hlt2
      · exact hneg _ _ _ (h.1 y hy) hlt2

theorem pairwise_foldl_insertElement (lt : String → String → Bool)
    (hasym : ∀ a b, lt a b = true → lt b a = false)
    (hneg : ∀ a b c, lt a b = false → lt b c = false → lt a c = false)
    (a sorted : List Candidate)
    (h : sorted.Pairwise (fun x y => lt y.version x.version = false)) :
    (a.foldl (fun sorted element => insertElement (compareCandidates lt) element sorted)
      sorted).Pairwise (fun x y => lt y.version x.version = false) := by
  induction a generalizing sorted with
  | nil => simpa using h
  | cons e rest ih =>
    rw [List.foldl_cons]
    exact ih _ (pairwise_insertElement lt hasym hneg e sorted h)

/-- After the sort no candidate stands before one of a higher version. -/
theorem pairwise_arraySort (lt : String → String → Bool)
    (hasym : ∀ a b, lt a b = true → lt b a = false)
    (hneg : ∀ a b c, lt a b = false → lt b c = false → lt a c = false)
    (a : List Candidate) :
    (arraySort (compareCandidates lt) a).Pairwise
      (fun x y => lt x.version y.version = false) := by
  unfold arraySort
  rw [List.pairwise_reverse]
  exact pairwise_foldl_insertElement lt hasym hneg a [] List.Pairwise.nil

theorem keepCandidate_toCandidate_iff (satisfies : String → Bool) (v : String) (d : Declaration) :
    keepCandidate satisfies (toCandidate (v, d)) = true ↔ Accepted satisfies d := by
  obtain ⟨engines⟩ := d
  unfold keepCandidate toCandidate Accepted
  cases engines with
  | none => simp
  | some e =>
    obtain ⟨g⟩ := e
    cases g with
    | none => simp
    | some range => simp

/-- The candidates that survive the filter are the accepted published versions. -/
theorem mem_survivors_iff (satisfies : String → Bool) (versions : List (String × Declaration))
    (c : Candidate) :
    c ∈ (versions.map toCandidate).filter (keepCandidate satisfies) ↔
      ∃ d, (c.version, d) ∈ versions ∧ Accepted satisfies d ∧ c = toCandidate (c.version, d) := by
  rw [List.mem_filter, List.mem_map]
  constructor
  · rintro ⟨⟨⟨v, d⟩, hmem, rfl⟩, hkeep⟩
    exact ⟨d, hmem, (keepCandidate_toCandidate_iff satisfies v d).mp hkeep, rfl⟩
  · rintro ⟨d, hmem, hacc, hc⟩
    refine ⟨⟨(c.version, d), hmem, hc.symm⟩, ?_⟩
    rw [hc]
    exact (keepCandidate_toCandidate_iff satisfies _ d).mpr hacc

theorem selectVersion_eq_some_iff (satisfies : String → Bool) (lt : String → String → Bool)
    (versions : List (String × Declaration)) (v : String) :
    selectVersion satisfies lt versions = some v ↔
      ∃ c, (arraySort (compareCandidates lt)
        ((versions.map toCandidate).filter (keepCandidate satisfies))).head? = some c ∧
        c.version = v := by
  unfold selectVersion
  rw [List.head?_map]
  cases (arraySort (compareCandidates lt)
    ((versions.map toCandidate).filter (keepCandidate satisfies))).head? with
  | none => simp
  | some c => simp

theorem semverLt_asymm (a b : String) (h : semverLt a b = true) : semverLt b a = false := by
  unfold semverLt at *
  simp only [decide_eq_true_eq, decide_eq_false_iff_not] at *
  omega

theorem semverLt_negtrans (a b c : String) (hab : semverLt a b = false)
    (hbc : semverLt b c = false) : semverLt a c = false := by
  unfold semverLt at *
  simp only [decide_eq_false_iff_not] at *
  omega

theorem not_accepted_of_noRange (satisfies : String → Bool) (d : Declaration)
    (h : NoRange d) : ¬ Accepted satisfies d := by
  rintro ⟨range, he, _, _⟩
  rcases h with h | h <;> rw [he] at h <;> simp at h

theorem selectVersion_eq_none_iff (satisfies : String → Bool) (lt : String → String → Bool)
    (versions : List (String × Declaration)) :
    selectVersion satisfies lt versions = none ↔
      ∀ p ∈ versions, ¬ Accepted satisfies p.2 := by
  unfold selectVersion
  rw [List.head?_eq_none_iff, List.map_eq_nil_iff, arraySort_eq_nil, List.filter_eq_nil_iff]
  constructor
  · intro h p hp hacc
    have hmem : toCandidate p ∈ versions.map toCandidate := List.mem_map_of_mem _ hp
    exact h _ hmem ((keepCandidate_toCandidate_iff satisfies p.1 p.2).mpr hacc)
  · intro h c hc hkeep
    obtain ⟨p, hp, rfl⟩ := List.mem_map.mp hc
    exact h p hp ((keepCandidate_toCandidate_iff satisfies p.1 p.2).mp hkeep)

theorem selectVersion_some_accepted (satisfies : String → Bool) (lt : String → String → Bool)
    (versions : List (String × Declaration)) (v : String)
    (h : selectVersion satisfies lt versions = some v) :
    ∃ d, (v, d) ∈ versions ∧ Accepted satisfies d := by
  obtain ⟨c, hhead, rfl⟩ := (selectVersion_eq_some_iff satisfies lt versions v).mp h
  have hmem : c ∈ arraySort (compareCandidates lt)
      ((versions.map toCandidate).filter (keepCandidate satisfies)) := List.mem_of_mem_head? hhead
  rw [mem_arraySort, mem_survivors_iff] at hmem
  obtain ⟨d, hd, hacc, _⟩ := hmem
  exact ⟨d, hd, hacc⟩

/-- C1: if `resolve` answers a version `v` for a registry answer, then `v` is a
key of the answer whose declaration carries a non-empty gitbook range that the
host predicate accepts, and no key with an accepted range is strictly higher
than `v` in the precedence `lt` (a strict weak order, as semver precedence is). -/
theorem selectVersion_highest_accepted (satisfies : String → Bool)
    (lt : String → String → Bool) (versions : List (String × Declaration)) (v : String)
    (hasym : ∀ a b, lt a b = true → lt b a = false)
    (hneg : ∀ a b c, lt a b = false → lt b c = false → lt a c = false)
    (h : selectVersion satisfies lt versions = some v) :
    (∃ d, (v, d) ∈ versions ∧ Accepted satisfies d) ∧
      ∀ w d, (w, d) ∈ versions → Accepted satisfies d → lt v w = false := by
  refine ⟨selectVersion_some_accepted satisfies lt versions v h, ?_⟩
  intro w d hw hacc
  obtain ⟨c, hhead, rfl⟩ := (selectVersion_eq_some_iff satisfies lt versions _).mp h
  have hpw := pairwise_arraySort lt hasym hneg
    ((versions.map toCandidate).filter (keepCandidate satisfies))
  have hin : toCandidate (w, d) ∈ arraySort (compareCandidates lt)
      ((versions.map toCandidate).filter (keepCandidate satisfies)) := by
    rw [mem_arraySort, mem_survivors_iff]
    exact ⟨d, hw, hacc, rfl⟩
  cases hsorted : arraySort (compareCandidates lt)
      ((versions.map toCandidate).filter (keepCandidate satisfies)) with
  | nil => rw [hsorted] at hhead; simp at hhead
  | cons c0 tail =>
    rw [hsorted] at hhead hpw hin
    simp only [List.head?_cons, Option.some.injEq] at hhead
    subst hhead
    rcases List.mem_cons.mp hin with heq | htail
    · have hv : c0.version = w := by rw [← heq]; rfl
      rw [hv]
      cases hww : lt w w with
      | false => rfl
      | true => exact absurd (hasym w w hww) (by rw [hww]; decide)
    · exact (List.pairwise_cons.mp hpw).1 _ htail

theorem selectVersion_highest_accepted_witness :
    selectVersion (fun range => range == "*") semverLt
        [("1.0.0", ⟨some ⟨some "*"⟩⟩), ("2.0.0", ⟨some ⟨some "*"⟩⟩),
          ("1.5.0", ⟨some ⟨some ">=9.0.0"⟩⟩)] = some "2.0.0" ∧
      ((∃ d, (("2.0.0" : String), d) ∈
          [(("1.0.0" : String), (⟨some ⟨some "*"⟩⟩ : Declaration)), ("2.0.0", ⟨some ⟨some "*"⟩⟩),
            ("1.5.0", ⟨some ⟨some ">=9.0.0"⟩⟩)] ∧ Accepted (fun range => range == "*") d) ∧
        ∀ w d, (w, d) ∈
          [(("1.0.0" : String), (⟨some ⟨some "*"⟩⟩ : Declaration)), ("2.0.0", ⟨some ⟨some "*"⟩⟩),
            ("1.5.0", ⟨some ⟨some ">=9.0.0"⟩⟩)] → Accepted (fun range => range == "*") d →
          semverLt "2.0.0" w = false) :=
  ⟨by decide,
    selectVersion_highest_accepted (fun range => range == "*") semverLt
      [("1.0.0", ⟨some ⟨some "*"⟩⟩), ("2.0.0", ⟨some ⟨some "*"⟩⟩),
        ("1.5.0", ⟨some ⟨some ">=9.0.0"⟩⟩)] "2.0.0"
      semverLt_asymm semverLt_negtrans (by decide)⟩

/-- C2: `resolve` answers NotFound (`none`, a value and not an error) exactly
when no published version has a present, non-empty range that the host
predicate accepts; so it answers NotFound when no declaration carries a range,
and a version whose declaration has no range is never selected, whatever the
predicate and the precedence are. -/
theorem selectVersion_notFound_iff (satisfies : String → Bool)
    (lt : String → String → Bool) (versions : List (String × Declaration)) :
    (selectVersion satisfies lt versions = none ↔
        ∀ p ∈ versions, ¬ Accepted satisfies p.2) ∧
      ((∀ p ∈ versions, NoRange p.2) → selectVersion satisfies lt versions = none) ∧
      (∀ v, (∀ d, (v, d) ∈ versions → NoRange d) →
        selectVersion satisfies lt versions ≠ some v) := by
  refine ⟨selectVersion_eq_none_iff satisfies lt versions, ?_, ?_⟩
  · intro h
    rw [selectVersion_eq_none_iff]
    intro p hp
    exact not_accepted_of_noRange satisfies p.2 (h p hp)
  · intro v hv hsel
    obtain ⟨d, hd, hacc⟩ := selectVersion_some_accepted satisfies lt versions v hsel
    exact not_accepted_of_noRange satisfies d (hv d hd) hacc

theorem selectVersion_notFound_iff_witness :
    (∀ p ∈ [(("1.0.0" : String), (⟨none⟩ : Declaration)), ("1.1.0", ⟨some ⟨none⟩⟩)],
        NoRange p.2) ∧
      selectVersion (fun _ => true) semverLt
        [("1.0.0", ⟨none⟩), ("1.1.0", ⟨some ⟨none⟩⟩)] = none :=
  ⟨by simp [NoRange],
    (selectVersion_notFound_iff (fun _ => true) semverLt
      [("1.0.0", ⟨none⟩), ("1.1.0", ⟨some ⟨none⟩⟩)]).2.1 (by simp [NoRange])⟩

/-! ## Properties of the install orchestrator -/

/-- What the resolver settles to depends on the state only through the
`initNPM` cache, not through the effects recorded so far. -/
theorem resolveVersion_result_congr (caps : Capabilities) (plugin : String) (w w' : World)
    (h : w.initNPM = w'.initNPM) :
    (resolveVersion caps plugin w).1 = (resolveVersion caps plugin w').1 := by
  unfold resolveVersion initNPM
  rw [← h]
  cases hmemo : w.initNPM with
  | none =>
    cases hload : caps.npmLoad with
    | error e => simp
    | ok u =>
      cases hview : caps.npmView [npmId plugin ++ "@*", "engines"] <;> simp [hview]
  | some r =>
    cases r with
    | error e => simp
    | ok u =>
      cases hview : caps.npmView [npmId plugin ++ "@*", "engines"] <;> simp [hview]

/-- The resolver only adds calls to the registry client to the trace. -/
theorem resolveVersion_trace (caps : Capabilities) (plugin : String) (w : World) :
    ∃ es, (resolveVersion caps plugin w).2.trace = w.trace ++ es ∧
      ∀ e ∈ es, e.isRegistryCall = true := by
  unfold resolveVersion initNPM
  cases hmemo : w.initNPM with
  | none =>
    cases hload : caps.npmLoad with
    | error e => exact ⟨[Effect.npmLoad], by simp, by simp [Effect.isRegistryCall]⟩
    | ok u =>
      refine ⟨[Effect.npmLoad, Effect.npmView [npmId plugin ++ "@*", "engines"]], ?_, ?_⟩
      · cases hview : caps.npmView [npmId plugin ++ "@*", "engines"] <;> simp [hview, perform]
      · simp [Effect.isRegistryCall]
  | some r =>
    cases r with
    | error e => exact ⟨[], by simp, by simp⟩
    | ok u =>
      refine ⟨[Effect.npmView [npmId plugin ++ "@*", "engines"]], ?_, ?_⟩
      · cases hview : caps.npmView [npmId plugin ++ "@*", "engines"] <;> simp [hview, perform]
      · simp [Effect.isRegistryCall]

theorem not_installer_of_registryCall (e : Effect) (h : e.isRegistryCall = true) :
    e.isInstallerCall = false ∧ e.isSuccessNote = false := by
  cases e <;> simp [Effect.isRegistryCall, Effect.isInstallerCall, Effect.isSuccessNote] at *

/-- C3: when install is called without a version (`undefined`, or the falsy
empty string) and the resolver answers NotFound, install fails with the
NoSatisfactoryVersion error naming the plugin, and among the effects it adds
there is no call of the installer and no success notification. -/
theorem installPlugin_notFound (caps : Capabilities) (book : Book) (plugin : String)
    (version : Option String) (w : World)
    (hver : truthy version = false)
    (hres : (resolveVersion caps plugin w).1 = Except.ok none) :
    (installPlugin caps book plugin version w).1 = Except.error (noSatisfactoryVersion plugin) ∧
      ∃ es, (installPlugin caps book plugin version w).2.trace = w.trace ++ es ∧
        ∀ e ∈ es, e.isInstallerCall = false ∧ e.isSuccessNote = false := by
  have hres2 := resolveVersion_result_congr caps plugin
    (perform (Effect.logInfoLn book ["No version specified, resolve plugin \"" ++ plugin ++ "\""])
      (perform (Effect.logInfoLn book ["installing plugin", plugin]) w)) w rfl
  rw [hres] at hres2
  obtain ⟨es, htrace, hes⟩ := resolveVersion_trace caps plugin
    (perform (Effect.logInfoLn book ["No version specified, resolve plugin \"" ++ plugin ++ "\""])
      (perform (Effect.logInfoLn book ["installing plugin", plugin]) w))
  unfold installPlugin chooseVersion
  simp only [hver, Bool.false_eq_true, if_false]
  generalize resolveVersion caps plugin
    (perform (Effect.logInfoLn book ["No version specified, resolve plugin \"" ++ plugin ++ "\""])
      (perform (Effect.logInfoLn book ["installing plugin", plugin]) w)) = r at hres2 htrace
  obtain ⟨res, w2⟩ := r
  simp only at hres2 htrace
  subst hres2
  simp only [installChosen]
  refine ⟨rfl, [Effect.logInfoLn book ["installing plugin", plugin],
    Effect.logInfoLn book ["No version specified, resolve plugin \"" ++ plugin ++ "\""]] ++ es,
    ?_, ?_⟩
  · rw [htrace]; simp [perform]
  · intro e he
    rcases List.mem_append.mp he with h | h
    · simp only [List.mem_cons, List.mem_singleton, List.not_mem_nil, or_false] at h
      rcases h with rfl | rfl <;> simp [Effect.isInstallerCall, Effect.isSuccessNote]
    · exact not_installer_of_registryCall e (hes e h)

theorem installPlugin_notFound_witness :
    truthy none = false ∧
      (resolveVersion quietRegistry "foo" freshWorld).1 = Except.ok none ∧
      (installPlugin quietRegistry ⟨"/book"⟩ "foo" none freshWorld).1
        = Except.error (noSatisfactoryVersion "foo") ∧
      ∃ es, (installPlugin quietRegistry ⟨"/book"⟩ "foo" none freshWorld).2.trace
          = freshWorld.trace ++ es ∧
        ∀ e ∈ es, e.isInstallerCall = false ∧ e.isSuccessNote = false :=
  ⟨rfl, rfl, installPlugin_notFound quietRegistry ⟨"/book"⟩ "foo" none freshWorld rfl rfl⟩

/-- With a truthy explicit version the first callback answers it and touches nothing. -/
theorem chooseVersion_explicit (caps : Capabilities) (book : Book) (plugin v : String)
    (w : World) (hv : v ≠ "") :
    chooseVersion caps book plugin (some v) w = (Except.ok (some v), w) := by
  have ht : truthy (some v) = true := by simp [truthy, hv]
  unfold chooseVersion
  rw [if_pos ht]

theorem installChosen_some (caps : Capabilities) (book : Book) (plugin npnName v : String)
    (w : World) (hv : v ≠ "") :
    installChosen caps book plugin npnName (some v) w =
      (caps.npmi (npmiOptions book npnName v),
        perform (Effect.npmi (npmiOptions book npnName v))
          (perform (Effect.logInfoLn book
            ["install plugin \"" ++ plugin ++ "\" from npm (" ++ npnName ++ ") with version", v])
            w)) := by
  have hb : (v == "") = false := by simp [hv]
  unfold installChosen
  simp only [hb, Bool.false_eq_true, if_false]

/-- C4: with an explicit (non-empty) version, install adds no call of the
registry client (no resolver call, no registry query, `initNPM` untouched),
calls the installer exactly once, with package name `npmId plugin`, that
version, the book root as path and as prefix, and, when the installer
succeeds, records the success notification on the book's log and succeeds. -/
theorem installPlugin_explicit (caps : Capabilities) (book : Book) (plugin v : String)
    (w : World) (hv : v ≠ "") :
    ∃ es, (installPlugin caps book plugin (some v) w).2.trace = w.trace ++ es ∧
      (installPlugin caps book plugin (some v) w).2.initNPM = w.initNPM ∧
      (∀ e ∈ es, e.isRegistryCall = false) ∧
      es.filter Effect.isInstallerCall =
        [Effect.npmi
          { name := npmId plugin, version := v, path := book.root,
            npmLoad := { loglevel := "silent", loaded := true, prefixDir := book.root } }] ∧
      (caps.npmi
          { name := npmId plugin, version := v, path := book.root,
            npmLoad := { loglevel := "silent", loaded := true, prefixDir := book.root } }
          = Except.ok () →
        (installPlugin caps book plugin (some v) w).1 = Except.ok () ∧
          Effect.logInfoOk book ["plugin \"" ++ plugin ++ "\" installed with success"] ∈ es) := by
  unfold installPlugin
  simp only [chooseVersion_explicit _ _ _ _ _ hv, installChosen_some _ _ _ _ _ _ hv]
  cases hres : caps.npmi (npmiOptions book (npmId plugin) v) with
  | error err =>
    refine ⟨[Effect.logInfoLn book ["installing plugin", plugin],
      Effect.logInfoLn book
        ["install plugin \"" ++ plugin ++ "\" from npm (" ++ npmId plugin ++ ") with version", v],
      Effect.npmi (npmiOptions book (npmId plugin) v)], ?_, ?_, ?_, ?_, ?_⟩
    · simp [perform]
    · simp [perform]
    · intro e he
      simp only [List.mem_cons, List.mem_singleton, List.not_mem_nil, or_false] at he
      rcases he with rfl | rfl | rfl <;> rfl
    · simp [List.filter, Effect.isInstallerCall, npmiOptions]
    · intro hok
      rw [npmiOptions] at hres
      rw [hres] at hok
      exact absurd hok (by simp)
  | ok u =>
    refine ⟨[Effect.logInfoLn book ["installing plugin", plugin],
      Effect.logInfoLn book
        ["install plugin \"" ++ plugin ++ "\" from npm (" ++ npmId plugin ++ ") with version", v],
      Effect.npmi (npmiOptions book (npmId plugin) v),
      Effect.logInfoOk book ["plugin \"" ++ plugin ++ "\" installed with success"]],
      ?_, ?_, ?_, ?_, ?_⟩
    · simp [perform]
    · simp [perform]
    · intro e he
      simp only [List.mem_cons, List.mem_singleton, List.not_mem_nil, or_false] at he
      rcases he with rfl | rfl | rfl | rfl <;> rfl
    · simp [List.filter, Effect.isInstallerCall, npmiOptions]
    · intro _
      exact ⟨rfl, by simp⟩

theorem installPlugin_explicit_witness :
    ("1.2.3" : String) ≠ "" ∧
      ∃ es, (installPlugin quietRegistry ⟨"/book"⟩ "foo" (some "1.2.3") freshWorld).2.trace
          = freshWorld.trace ++ es ∧
        (installPlugin quietRegistry ⟨"/book"⟩ "foo" (some "1.2.3") freshWorld).2.initNPM
          = freshWorld.initNPM ∧
        (∀ e ∈ es, e.isRegistryCall = false) ∧
        es.filter Effect.isInstallerCall =
          [Effect.npmi
            { name := npmId "foo", version := "1.2.3", path := (⟨"/book"⟩ : Book).root,
              npmLoad := { loglevel := "silent", loaded := true,
                           prefixDir := (⟨"/book"⟩ : Book).root } }] ∧
        (quietRegistry.npmi
            { name := npmId "foo", version := "1.2.3", path := (⟨"/book"⟩ : Book).root,
              npmLoad := { loglevel := "silent", loaded := true,
                           prefixDir := (⟨"/book"⟩ : Book).root } }
            = Except.ok () →
          (installPlugin quietRegistry ⟨"/book"⟩ "foo" (some "1.2.3") freshWorld).1 = Except.ok () ∧
            Effect.logInfoOk ⟨"/book"⟩ ["plugin \"" ++ "foo" ++ "\" installed with success"] ∈ es) :=
  ⟨by decide, installPlugin_explicit quietRegistry ⟨"/book"⟩ "foo" "1.2.3" freshWorld (by decide)⟩

theorem not_successNote_of_registryCall (e : Effect) (h : e.isRegistryCall = true) :
    e.isSuccessNote = false := (not_installer_of_registryCall e h).2

/-- C5: when the installer fails with error `err` on the chosen version `v`
(the explicit one, or the one the resolver answered), install fails with
exactly `err` and adds no success notification. -/
theorem installPlugin_installer_error (caps : Capabilities) (book : Book) (plugin : String)
    (version : Option String) (v : String) (err : JSError) (w : World)
    (hchosen : version = some v ∨
      (truthy version = false ∧ (resolveVersion caps plugin w).1 = Except.ok (some v)))
    (hv : v ≠ "")
    (hfail : caps.npmi
        { name := npmId plugin, version := v, path := book.root,
          npmLoad := { loglevel := "silent", loaded := true, prefixDir := book.root } }
        = Except.error err) :
    (installPlugin caps book plugin version w).1 = Except.error err ∧
      ∃ es, (installPlugin caps book plugin version w).2.trace = w.trace ++ es ∧
        ∀ e ∈ es, e.isSuccessNote = false := by
  have hfail2 : caps.npmi (npmiOptions book (npmId plugin) v) = Except.error err := hfail
  rcases hchosen with rfl | ⟨hver, hres⟩
  · unfold installPlugin
    simp only [chooseVersion_explicit _ _ _ _ _ hv, installChosen_some _ _ _ _ _ _ hv, hfail2]
    refine ⟨trivial, [Effect.logInfoLn book ["installing plugin", plugin],
      Effect.logInfoLn book
        ["install plugin \"" ++ plugin ++ "\" from npm (" ++ npmId plugin ++ ") with version", v],
      Effect.npmi (npmiOptions book (npmId plugin) v)], ?_, ?_⟩
    · simp [perform]
    · intro e he
      simp only [List.mem_cons, List.mem_singleton, List.not_mem_nil, or_false] at he
      rcases he with rfl | rfl | rfl <;> rfl
  · have hres2 := resolveVersion_result_congr caps plugin
      (perform (Effect.logInfoLn book ["No version specified, resolve plugin \"" ++ plugin ++ "\""])
        (perform (Effect.logInfoLn book ["installing plugin", plugin]) w)) w rfl
    rw [hres] at hres2
    obtain ⟨es, htrace, hes⟩ := resolveVersion_trace caps plugin
      (perform (Effect.logInfoLn book ["No version specified, resolve plugin \"" ++ plugin ++ "\""])
        (perform (Effect.logInfoLn book ["installing plugin", plugin]) w))
    unfold installPlugin chooseVersion
    simp only [hver, Bool.false_eq_true, if_false]
    generalize resolveVersion caps plugin
      (perform (Effect.logInfoLn book ["No version specified, resolve plugin \"" ++ plugin ++ "\""])
        (perform (Effect.logInfoLn book ["installing plugin", plugin]) w)) = r at hres2 htrace
    obtain ⟨res, w2⟩ := r
    simp only at hres2 htrace
    subst hres2
    simp only [installChosen_some _ _ _ _ _ _ hv, hfail2]
    refine ⟨trivial, [Effect.logInfoLn book ["installing plugin", plugin],
      Effect.logInfoLn book ["No version specified, resolve plugin \"" ++ plugin ++ "\""]] ++ es
      ++ [Effect.logInfoLn book
        ["install plugin \"" ++ plugin ++ "\" from npm (" ++ npmId plugin ++ ") with version", v],
      Effect.npmi (npmiOptions book (npmId plugin) v)], ?_, ?_⟩
    · simp [perform, htrace]
    · intro e he
      simp only [List.mem_append, List.mem_cons, List.mem_singleton, List.not_mem_nil,
        or_false] at he
      rcases he with (((rfl | rfl) | h) | rfl | rfl)
      · rfl
      · rfl
      · exact not_successNote_of_registryCall e (hes e h)
      · rfl
      · rfl

theorem installPlugin_installer_error_witness :
    ((none : Option String) = some "1.1.0" ∨
        (truthy none = false ∧
          (resolveVersion failingInstaller "foo" freshWorld).1 = Except.ok (some "1.1.0"))) ∧
      ("1.1.0" : String) ≠ "" ∧
      (installPlugin failingInstaller ⟨"/book"⟩ "foo" none freshWorld).1
        = Except.error ⟨"EACCES"⟩ ∧
      ∃ es, (installPlugin failingInstaller ⟨"/book"⟩ "foo" none freshWorld).2.trace
          = freshWorld.trace ++ es ∧
        ∀ e ∈ es, e.isSuccessNote = false :=
  ⟨Or.inr ⟨rfl, rfl⟩, by decide,
    installPlugin_installer_error failingInstaller ⟨"/book"⟩ "foo" none "1.1.0" ⟨"EACCES"⟩
      freshWorld (Or.inr ⟨rfl, rfl⟩) (by decide) rfl⟩

/-! ## Properties of the installed-set scanner -/

theorem isPluginAt_nil (pkg : Pkg) : isPluginAt pkg [] = validateId pkg.name := rfl

theorem isPluginAt_cons (pkg dep : Pkg) (i : Nat) (q : List Nat)
    (h : pkg.dependencies[i]? = some dep) :
    isPluginAt pkg (i :: q) = isPluginAt dep q := by
  simp only [isPluginAt, Pkg.nodeAt, h]

theorem recordAt_cons (pkg dep : Pkg) (i : Nat) (q : List Nat)
    (h : pkg.dependencies[i]? = some dep) :
    recordAt pkg (i :: q) = recordAt dep q := by
  simp only [recordAt, Pkg.nodeAt, h]

theorem admittedFrom_nil (b : Bool) (pkg : Pkg) :
    admittedFrom b pkg [] = validateId pkg.name := by
  simp [admittedFrom, isPluginAt_nil]

theorem admittedFrom_cons (b : Bool) (pkg dep : Pkg) (i : Nat) (q : List Nat)
    (h : pkg.dependencies[i]? = some dep) :
    admittedFrom b pkg (i :: q) = ((b || validateId pkg.name) && admittedFrom false dep q) := by
  unfold admittedFrom
  rw [isPluginAt_cons pkg dep i q h, List.length_cons, List.range_succ_eq_map, List.all_cons,
    List.all_map]
  have hfun : ((fun k => (b && k == 0) || isPluginAt pkg ((i :: q).take k)) ∘ Nat.succ)
      = (fun k => (false && k == 0) || isPluginAt dep (q.take k)) := by
    funext k
    simp [isPluginAt_cons pkg dep i _ h]
  rw [hfun]
  simp only [beq_self_eq_true, Bool.and_true, List.take_zero, isPluginAt_nil]
  cases isPluginAt dep q <;> cases (b || validateId pkg.name) <;> simp

/-- The part of the discovery sequence that lies in the dependencies `ds`,
where `ds` are the dependencies of `pkg` from position `i` on. -/
theorem recorded_pathsFrom (b : Bool) (pkg : Pkg) (ds pre : List Pkg) (i : Nat)
    (hdeps : pkg.dependencies = pre ++ ds) (hi : i = pre.length) :
    ((pathsFrom ds i).filter (admittedFrom b pkg)).filterMap (recordAt pkg) =
      if (b || validateId pkg.name) = true then recordedAll ds else [] := by
  induction ds generalizing pre i with
  | nil => simp [pathsFrom, recordedAll]
  | cons d rest ih =>
    have hget : pkg.dependencies[i]? = some d := by
      rw [hdeps, hi, List.getElem?_append_right (Nat.le_refl _)]
      simp
    have hrest := ih (pre ++ [d]) (i + 1) (by rw [hdeps]; simp) (by rw [hi]; simp)
    rw [pathsFrom, List.filter_append, List.filterMap_append, hrest, List.filter_map,
      List.filterMap_map]
    have hrec : recordAt pkg ∘ List.cons i = recordAt d := by
      funext q
      exact recordAt_cons pkg d i q hget
    have hadm : admittedFrom b pkg ∘ List.cons i
        = fun q => ((b || validateId pkg.name) && admittedFrom false d q) := by
      funext q
      exact admittedFrom_cons b pkg d i q hget
    rw [hrec, hadm]
    cases hc : (b || validateId pkg.name) with
    | false => simp
    | true =>
      simp only [Bool.true_and, if_true, recordedAll]
      rfl

/-- Unfolding of the discovery sequence at a node: its own record when its
name is a plugin package name, then, unless the node is pruned, the discovery
sequences of its dependencies in declaration order. -/
theorem recordedFrom_mk (b : Bool) (name version realPath : String) (depth : Nat)
    (dependencies : List Pkg) :
    recordedFrom b (Pkg.mk name version realPath depth dependencies) =
      (if validateId name = true then
          [{ name := pluginId name, version := version, path := realPath, depth := depth }]
        else []) ++
      (if (b || validateId name) = true then recordedAll dependencies else []) := by
  have hforest := recorded_pathsFrom b (Pkg.mk name version realPath depth dependencies)
    dependencies [] 0 rfl rfl
  unfold recordedFrom
  rw [Pkg.paths, List.filter_cons, admittedFrom_nil]
  simp only [Pkg.name] at hforest ⊢
  by_cases hv : validateId name = true
  · have hor : (b || validateId name) = true := by simp [hv]
    rw [if_pos hor] at hforest
    rw [if_pos hv, if_pos hv, if_pos hor, List.filterMap_cons]
    simp only [recordAt, Pkg.nodeAt, Option.map_some', Pkg.record, List.singleton_append]
    exact congrArg _ hforest
  · rw [if_neg hv, if_neg hv, List.nil_append]
    exact hforest

mutual
/-- The recursive walk pushes exactly the discovery sequence on `results`. -/
theorem onPackage_eq : ∀ (pkg : Pkg) (isRoot : Bool) (results : List InstalledPlugin),
    onPackage pkg isRoot results = results ++ recordedFrom isRoot pkg
  | Pkg.mk name version realPath depth dependencies, isRoot, results => by
    rw [onPackage, recordedFrom_mk]
    cases hv : validateId name with
    | true =>
      simp only [Bool.not_true, Bool.false_eq_true, if_false, if_true, Bool.or_true]
      rw [eachDependency_eq dependencies]
      simp
    | false =>
      cases isRoot with
      | true =>
        simp only [Bool.not_false, if_true, Bool.not_true, Bool.false_eq_true, if_false,
          Bool.or_false, List.nil_append]
        exact eachDependency_eq dependencies results
      | false =>
        simp
theorem eachDependency_eq : ∀ (ds : List Pkg) (results : List InstalledPlugin),
    eachDependency ds results = results ++ recordedAll ds
  | [], results => by simp [eachDependency, recordedAll]
  | dep :: rest, results => by
    rw [eachDependency, onPackage_eq dep false results, eachDependency_eq rest, recordedAll,
      List.append_assoc]
end

/-- The array `results` after the walk from the root is the discovery sequence. -/
theorem onPackage_root (data : Pkg) : onPackage data true [] = discovered data := by
  rw [onPackage_eq]
  rfl

/-! ### Deduplication by name -/

/-- The loop of `baseUniq` leaves `result` followed by the first occurrences of
the names that are not yet in `seen`. -/
theorem baseUniq_name_eq (xs : List InstalledPlugin) (seen : List String)
    (result : List InstalledPlugin) :
    baseUniq InstalledPlugin.name xs seen result =
      result ++ (keepFirstByName xs).filter (fun r => decide (r.name ∉ seen)) := by
  induction xs generalizing seen result with
  | nil => simp [baseUniq, keepFirstByName]
  | cons x rest ih =>
    unfold baseUniq
    by_cases hx : x.name ∈ seen
    · rw [if_pos hx, ih, keepFirstByName, List.filter_cons]
      have hdec : decide (x.name ∉ seen) = false := by simpa using hx
      rw [hdec]
      simp only [Bool.false_eq_true, if_false, List.filter_filter]
      congr 1
      apply List.filter_congr
      intro a _
      by_cases ha : a.name ∈ seen
      · simp [ha]
      · have hne : a.name ≠ x.name := fun h => ha (h ▸ hx)
        simp [ha, hne]
    · rw [if_neg hx, ih, keepFirstByName, List.filter_cons]
      have hdec : decide (x.name ∉ seen) = true := by simpa using hx
      rw [hdec]
      simp only [if_true, List.filter_filter, List.append_assoc, List.singleton_append]
      congr 2
      apply List.filter_congr
      intro a _
      by_cases ha : a.name ∈ seen
      · simp [ha]
      · by_cases hne : a.name = x.name
        · simp [ha, hne]
        · simp [ha, hne]

/-- The call `_.uniq(results, 'name')` keeps the first record of every name. -/
theorem uniqByName_eq (xs : List InstalledPlugin) : uniqByName xs = keepFirstByName xs := by
  unfold uniqByName
  rw [baseUniq_name_eq]
  simp

theorem keepFirstByName_sublist (xs : List InstalledPlugin) :
    List.Sublist (keepFirstByName xs) xs := by
  induction xs with
  | nil => exact List.Sublist.slnil
  | cons x rest ih =>
    rw [keepFirstByName]
    exact List.Sublist.cons₂ x ((List.filter_sublist _).trans ih)

theorem keepFirstByName_pairwise (xs : List InstalledPlugin) :
    (keepFirstByName xs).Pairwise (fun a b => a.name ≠ b.name) := by
  induction xs with
  | nil => exact List.Pairwise.nil
  | cons x rest ih =>
    rw [keepFirstByName, List.pairwise_cons]
    refine ⟨?_, ih.filter _⟩
    intro b hb
    have hb2 := (List.mem_filter.mp hb).2
    intro h
    simp [h] at hb2

theorem keepFirstByName_nodup (xs : List InstalledPlugin) :
    ((keepFirstByName xs).map InstalledPlugin.name).Nodup := by
  rw [List.Nodup, List.pairwise_map]
  exact keepFirstByName_pairwise xs

/-- The records of a given name that survive are exactly one, the first of that
name in the input, when there is one, and none otherwise. -/
theorem keepFirstByName_filter (xs : List InstalledPlugin) (n : String) :
    (keepFirstByName xs).filter (fun r => r.name == n) =
      (xs.find? (fun r => r.name == n)).toList := by
  induction xs with
  | nil => rfl
  | cons x rest ih =>
    rw [keepFirstByName, List.filter_cons, List.find?_cons, List.filter_filter]
    by_cases hx : x.name = n
    · have hb : (x.name == n) = true := by simp [hx]
      rw [hb]
      simp only [if_true, Option.toList_some]
      have hnil : List.filter (fun a => (a.name == n) && (a.name != x.name))
          (keepFirstByName rest) = [] := by
        rw [List.filter_eq_nil_iff]
        intro a _
        by_cases ha : a.name = n
        · simp [ha, hx]
        · simp [ha]
      rw [hnil]
    · have hb : (x.name == n) = false := by simp [hx]
      rw [hb]
      simp only [Bool.false_eq_true, if_false]
      rw [← ih]
      apply List.filter_congr
      intro a _
      by_cases ha : a.name = n
      · have hne : n ≠ x.name := fun h => hx h.symm
        simp [ha, hne]
      · simp [ha]

theorem find?_eq_head?_filter {α : Type} (p : α → Bool) (l : List α) :
    l.find? p = (l.filter p).head? := by
  induction l with
  | nil => rfl
  | cons x rest ih =>
    rw [List.find?_cons, List.filter_cons]
    cases hp : p x with
    | true => simp
    | false =>
      simp only [Bool.false_eq_true, if_false]
      exact ih

theorem keepFirstByName_find? (xs : List InstalledPlugin) (n : String) :
    (keepFirstByName xs).find? (fun r => r.name == n) = xs.find? (fun r => r.name == n) := by
  rw [find?_eq_head?_filter, keepFirstByName_filter]
  cases xs.find? (fun r => r.name == n) <;> rfl

/-! ### The scan -/

/-- C6: before deduplication the scan has recorded exactly the admitted nodes
(own name a plugin package name, and every ancestor other than the root too),
in depth-first declaration order; a node at or below a non-root node whose
name is not a plugin package name is not admitted; and the tree
`root -> [A (plugin), B (not a plugin) -> [C (plugin)]]` yields only `A`. -/
theorem onPackage_records_admitted (data : Pkg) :
    onPackage data true [] = (data.paths.filter (admitted data)).filterMap (recordAt data) ∧
      (∀ (path : List Nat) (k : Nat), 0 < k → k ≤ path.length →
        isPluginAt data (path.take k) = false → admitted data path = false) ∧
      onPackage prunedTree true [] =
        [⟨"a", "1.0.0", "/book/node_modules/gitbook-plugin-a", 1⟩] ∧
      scanTree prunedTree = [⟨"a", "1.0.0", "/book/node_modules/gitbook-plugin-a", 1⟩] := by
  refine ⟨onPackage_root data, ?_, by decide, by decide⟩
  intro path k hk hle hnot
  unfold admitted admittedFrom
  rcases Nat.lt_or_eq_of_le hle with hlt | heq
  · have hall : (List.range path.length).all
        (fun k => (true && k == 0) || isPluginAt data (path.take k)) = false := by
      rw [List.all_eq_false]
      refine ⟨k, List.mem_range.mpr hlt, ?_⟩
      have hk0 : (k == 0) = false := by
        rw [beq_eq_false_iff_ne]
        omega
      simp [hk0, hnot]
    rw [hall, Bool.and_false]
  · rw [heq, List.take_length] at hnot
    rw [hnot, Bool.false_and]

theorem onPackage_records_admitted_witness :
    0 < 1 ∧ 1 ≤ [1, 0].length ∧ isPluginAt prunedTree ([1, 0].take 1) = false ∧
      admitted prunedTree [1, 0] = false :=
  ⟨by decide, by decide, by decide,
    (onPackage_records_admitted prunedTree).2.1 [1, 0] 1 (by decide) (by decide) (by decide)⟩

/-- C7: the scan answers the discovery sequence (the admitted nodes in
depth-first declaration order) deduplicated by name keeping the first
occurrence: no two records of the answer share a name, the answer is a
subsequence of the discovery sequence (the kept records stay in discovery
order), and for every name the answer and the discovery sequence have the
same first record of that name. -/
theorem scanTree_first_occurrence (data : Pkg) :
    scanTree data = keepFirstByName (discovered data) ∧
      ((scanTree data).map InstalledPlugin.name).Nodup ∧
      List.Sublist (scanTree data) (discovered data) ∧
      ∀ n : String, (scanTree data).find? (fun r => r.name == n) =
        (discovered data).find? (fun r => r.name == n) := by
  have h : scanTree data = keepFirstByName (discovered data) := by
    unfold scanTree
    rw [uniqByName_eq, onPackage_root]
  rw [h]
  exact ⟨rfl, keepFirstByName_nodup _, keepFirstByName_sublist _,
    fun n => keepFirstByName_find? _ n⟩

/-- C8, as stated, fails: in `nestedFirstTree`, whose depths are consistent,
two recorded nodes are named `foo`, at depths 2 and 1; the scan answers one
record for `foo`, the one at depth 2, which is not the shallowest. -/
theorem scanTree_keeps_deeper_foo :
    consistentDepths nestedFirstTree = true ∧
      discovered nestedFirstTree =
        [⟨"a", "1.0.0", "/book/node_modules/gitbook-plugin-a", 1⟩,
         ⟨"foo", "1.0.0",
           "/book/node_modules/gitbook-plugin-a/node_modules/gitbook-plugin-foo", 2⟩,
         ⟨"foo", "2.0.0", "/book/node_modules/gitbook-plugin-foo", 1⟩] ∧
      (scanTree nestedFirstTree).filter (fun r => r.name == "foo") =
        [⟨"foo", "1.0.0",
           "/book/node_modules/gitbook-plugin-a/node_modules/gitbook-plugin-foo", 2⟩] ∧
      ¬ (∀ kept ∈ scanTree nestedFirstTree, kept.name = "foo" →
          ∀ r ∈ discovered nestedFirstTree, r.name = "foo" → kept.depth ≤ r.depth) := by
  refine ⟨by decide, by decide, by decide, ?_⟩
  intro h
  have hle := h ⟨"foo", "1.0.0",
      "/book/node_modules/gitbook-plugin-a/node_modules/gitbook-plugin-foo", 2⟩ (by decide) rfl
    ⟨"foo", "2.0.0", "/book/node_modules/gitbook-plugin-foo", 1⟩ (by decide) rfl
  exact absurd hle (by decide)

/-- C8, amended: for every tree with a recorded node of name `n`, the scan
answers exactly one record of that name, and it is the earliest discovered one
in depth-first declaration order. -/
theorem scanTree_one_record_earliest (data : Pkg) (n : String)
    (h : ∃ r ∈ discovered data, r.name = n) :
    ∃ first, (discovered data).find? (fun r => r.name == n) = some first ∧
      (scanTree data).filter (fun r => r.name == n) = [first] := by
  have hsome : ((discovered data).find? (fun r => r.name == n)).isSome = true := by
    rw [List.find?_isSome]
    obtain ⟨r, hr, hn⟩ := h
    exact ⟨r, hr, by simp [hn]⟩
  obtain ⟨first, hfirst⟩ := Option.isSome_iff_exists.mp hsome
  refine ⟨first, hfirst, ?_⟩
  unfold scanTree
  rw [uniqByName_eq, onPackage_root, keepFirstByName_filter, hfirst]
  rfl

theorem scanTree_one_record_earliest_witness :
    (∃ r ∈ discovered nestedFirstTree, r.name = "foo") ∧
      ∃ first, (discovered nestedFirstTree).find? (fun r => r.name == "foo") = some first ∧
        (scanTree nestedFirstTree).filter (fun r => r.name == "foo") = [first] :=
  ⟨⟨⟨"foo", "2.0.0", "/book/node_modules/gitbook-plugin-foo", 1⟩, by decide, rfl⟩,
    scanTree_one_record_earliest nestedFirstTree "foo"
      ⟨⟨"foo", "2.0.0", "/book/node_modules/gitbook-plugin-foo", 1⟩, by decide, rfl⟩⟩

/-- The spread callback of `listPlugins` answers the project records followed
by the defaults records, deduplicated by name keeping the first occurrence:
for every project record it holds exactly one record of that name, the first
project record of that name, and any other record of it is a defaults record
whose name no project record has. -/
theorem mergePlugins_keeps_project (defaultPlugins plugins : List InstalledPlugin) :
    mergePlugins defaultPlugins plugins = keepFirstByName (plugins ++ defaultPlugins) ∧
      (∀ r ∈ plugins, ∃ mine, plugins.find? (fun p => p.name == r.name) = some mine ∧
        (mergePlugins defaultPlugins plugins).filter (fun p => p.name == r.name) = [mine]) ∧
      (∀ r ∈ mergePlugins defaultPlugins plugins,
        r ∈ plugins ∨ (r ∈ defaultPlugins ∧ ∀ p ∈ plugins, p.name ≠ r.name)) ∧
      mergePlugins [⟨"foo", "1.0.0", "/gitbook/node_modules/gitbook-plugin-foo", 1⟩]
          [⟨"foo", "2.0.0", "/book/node_modules/gitbook-plugin-foo", 1⟩]
        = [⟨"foo", "2.0.0", "/book/node_modules/gitbook-plugin-foo", 1⟩] := by
  have hmerge : mergePlugins defaultPlugins plugins
      = keepFirstByName (plugins ++ defaultPlugins) := by
    unfold mergePlugins
    rw [uniqByName_eq]
  have hmine : ∀ r ∈ plugins, ∃ mine, plugins.find? (fun p => p.name == r.name) = some mine ∧
      (mergePlugins defaultPlugins plugins).filter (fun p => p.name == r.name) = [mine] := by
    intro r hr
    have hsome : (plugins.find? (fun p => p.name == r.name)).isSome = true := by
      rw [List.find?_isSome]
      exact ⟨r, hr, by simp⟩
    obtain ⟨mine, hfind⟩ := Option.isSome_iff_exists.mp hsome
    refine ⟨mine, hfind, ?_⟩
    rw [hmerge, keepFirstByName_filter, List.find?_append, hfind]
    rfl
  refine ⟨hmerge, hmine, ?_, by decide⟩
  intro r hr
  have hin : r ∈ plugins ++ defaultPlugins := by
    rw [hmerge] at hr
    exact (keepFirstByName_sublist _).subset hr
  by_cases hp : r ∈ plugins
  · exact Or.inl hp
  · right
    refine ⟨(List.mem_append.mp hin).resolve_left hp, ?_⟩
    intro p hpin hname
    obtain ⟨mine, hfind, hfilter⟩ := hmine p hpin
    have hrfilter : r ∈ (mergePlugins defaultPlugins plugins).filter
        (fun q => q.name == p.name) := by
      rw [List.mem_filter]
      exact ⟨hr, by simp [hname]⟩
    rw [hfilter, List.mem_singleton] at hrfilter
    rw [hrfilter] at hp
    exact hp (List.mem_of_find?_eq_some hfind)

/-! ## Further properties of the identifier normaliser -/

theorem indexOfFrom_ge (pat s : List Char) (i : Nat) :
    indexOfFrom pat s i = -1 ∨ (i : Int) ≤ indexOfFrom pat s i := by
  induction s generalizing i with
  | nil =>
    unfold indexOfFrom
    split
    · right; exact Int.le_refl _
    · left; rfl
  | cons c cs ih =>
    unfold indexOfFrom
    split
    · right; exact Int.le_refl _
    · rcases ih (i + 1) with h | h
      · left; exact h
      · right; omega

/-- The search answers position `0` exactly when the pattern is an initial
segment of the string. -/
theorem indexOfFrom_zero_iff (pat s : List Char) :
    indexOfFrom pat s 0 = 0 ↔ pat <+: s := by
  rw [← List.isPrefixOf_iff_prefix]
  cases s with
  | nil =>
    unfold indexOfFrom
    by_cases h : pat.isPrefixOf [] = true
    · rw [if_pos h]; simp [h]
    · rw [if_neg h]
      constructor
      · intro h0; omega
      · intro h1; exact absurd h1 h
  | cons c cs =>
    unfold indexOfFrom
    by_cases h : pat.isPrefixOf (c :: cs) = true
    · rw [if_pos h]; simp [h]
    · rw [if_neg h]
      constructor
      · intro h0
        rcases indexOfFrom_ge pat cs (0 + 1) with h1 | h1
        · rw [h1] at h0; omega
        · rw [h0] at h1; omega
      · intro h1; exact absurd h1 h

theorem indexOf_zero_iff (s : String) :
    indexOf s PLUGIN_PREFIX = 0 ↔ StartsWithPrefix s :=
  indexOfFrom_zero_iff _ _

theorem startsWithPrefix_iff (s : String) :
    StartsWithPrefix s ↔ ∃ rest : String, s = PLUGIN_PREFIX ++ rest := by
  constructor
  · rintro ⟨t, ht⟩
    refine ⟨⟨t⟩, ?_⟩
    apply String.ext
    rw [← ht]
    simp
  · rintro ⟨rest, rfl⟩
    exact ⟨rest.data, by simp⟩

theorem startsWithPrefix_append (rest : String) : StartsWithPrefix (PLUGIN_PREFIX ++ rest) :=
  (startsWithPrefix_iff _).mpr ⟨rest, rfl⟩

theorem npmId_of_leading (name : String) (h : StartsWithPrefix name) : npmId name = name := by
  unfold npmId
  rw [if_pos ((indexOf_zero_iff name).mpr h)]

theorem npmId_of_not_startsWith (name : String) (h : ¬ StartsWithPrefix name) :
    npmId name = PLUGIN_PREFIX ++ name :=
  npmId_of_not_leading name (fun h0 => h ((indexOf_zero_iff name).mp h0))

theorem prefix_append_ne_empty (rest : String) : PLUGIN_PREFIX ++ rest ≠ "" := by
  intro h
  have hd := congrArg String.data h
  have hlen := congrArg List.length hd
  simp [PLUGIN_PREFIX] at hlen

theorem validateId_iff (x : String) :
    validateId x = true ↔ x ≠ "" ∧ StartsWithPrefix x := by
  unfold validateId
  rw [Bool.and_eq_true, decide_eq_true_eq, indexOf_zero_iff]
  simp

theorem validateId_iff_startsWith (x : String) :
    validateId x = true ↔ StartsWithPrefix x := by
  rw [validateId_iff]
  constructor
  · exact fun h => h.2
  · intro h
    refine ⟨?_, h⟩
    obtain ⟨rest, rfl⟩ := (startsWithPrefix_iff x).mp h
    exact prefix_append_ne_empty rest

/-- An accepted package name is the prefix followed by its plugin ID. -/
theorem eq_prefix_append_pluginId (p : String) (h : validateId p = true) :
    p = PLUGIN_PREFIX ++ pluginId p := by
  obtain ⟨rest, rfl⟩ := (startsWithPrefix_iff p).mp ((validateId_iff_startsWith p).mp h)
  rw [pluginId_prefix_append]

/-- After the leading prefix is stripped and put back, a prefixed name is
unchanged exactly when what follows the leading prefix does not begin with the
prefix again. -/
theorem npmId_pluginId_prefix_append (rest : String) :
    npmId (pluginId (PLUGIN_PREFIX ++ rest)) = PLUGIN_PREFIX ++ rest ↔
      ¬ StartsWithPrefix rest := by
  rw [pluginId_prefix_append]
  constructor
  · intro h hstart
    rw [npmId_of_leading rest hstart] at h
    have hlen := congrArg String.length h
    simp [String.length_append, PLUGIN_PREFIX] at hlen
    exact absurd hlen (by decide)
  · intro h
    exact npmId_of_not_startsWith rest h

theorem countOccurrences_pos (pat s : List Char) (h : pat <+: s) :
    1 ≤ countOccurrences pat s := by
  have hb : pat.isPrefixOf s = true := List.isPrefixOf_iff_prefix.mpr h
  cases s with
  | nil => unfold countOccurrences; rw [if_pos hb]
  | cons c cs => unfold countOccurrences; rw [if_pos hb]; omega

theorem countOccurrences_append_le (pat a s : List Char) :
    countOccurrences pat s ≤ countOccurrences pat (a ++ s) := by
  induction a with
  | nil => exact Nat.le_refl _
  | cons c rest ih =>
    show countOccurrences pat s ≤ countOccurrences pat (c :: (rest ++ s))
    rw [countOccurrences]
    omega

/-- A string that begins with the pattern and goes on with the pattern again
holds at least two occurrences of it. -/
theorem two_le_countOccurrences (pat rest : List Char) (hpat : pat ≠ [])
    (h : pat <+: rest) : 2 ≤ countOccurrences pat (pat ++ rest) := by
  cases pat with
  | nil => exact absurd rfl hpat
  | cons c cs =>
    have hb : (c :: cs).isPrefixOf (c :: (cs ++ rest)) = true :=
      List.isPrefixOf_iff_prefix.mpr (List.prefix_append (c :: cs) rest)
    show 2 ≤ countOccurrences (c :: cs) (c :: (cs ++ rest))
    rw [countOccurrences, if_pos hb]
    have h1 := countOccurrences_pos (c :: cs) rest h
    have h2 := countOccurrences_append_le (c :: cs) cs rest
    omega

theorem replaceFirst_leftmost (pat rep a b : List Char) (hpat : pat ≠ [])
    (hleft : ∀ a' b', a ++ pat ++ b = a' ++ pat ++ b' → a.length ≤ a'.length) :
    replaceFirst pat rep (a ++ pat ++ b) = a ++ rep ++ b := by
  induction a with
  | nil =>
    rw [List.nil_append, List.nil_append]
    exact replaceFirst_append_left pat rep b hpat
  | cons c rest ih =>
    have hnot : ¬ pat.isPrefixOf (c :: (rest ++ pat ++ b)) = true := by
      intro hb
      obtain ⟨t, ht⟩ := List.isPrefixOf_iff_prefix.mp hb
      have := hleft [] t (by simpa using ht.symm)
      simp at this
    have hleft2 : ∀ a' b', rest ++ pat ++ b = a' ++ pat ++ b' → rest.length ≤ a'.length := by
      intro a' b' h
      have := hleft (c :: a') b' (by simp [h])
      simpa using this
    show replaceFirst pat rep (c :: (rest ++ pat ++ b)) = c :: (rest ++ rep ++ b)
    rw [replaceFirst, if_neg hnot, ih hleft2]

theorem replaceFirst_of_absent (pat rep s : List Char) (h : ¬ pat <:+: s) :
    replaceFirst pat rep s = s := by
  induction s with
  | nil =>
    have hnot : ¬ pat.isPrefixOf [] = true :=
      fun hb => h (List.isPrefixOf_iff_prefix.mp hb).isInfix
    rw [replaceFirst, if_neg hnot]
  | cons c cs ih =>
    have hnot : ¬ pat.isPrefixOf (c :: cs) = true :=
      fun hb => h (List.isPrefixOf_iff_prefix.mp hb).isInfix
    have htail : ¬ pat <:+: cs := fun hinf => h (List.infix_cons_iff.mpr (Or.inr hinf))
    rw [replaceFirst, if_neg hnot, ih htail]

/-- C11: for every fully-qualified name `p` that starts with the namespace
prefix and contains it exactly once, `npmId (pluginId p) = p`. -/
theorem npmId_pluginId_roundtrip (p : String) (hstart : StartsWithPrefix p)
    (honce : prefixOccurrences p = 1) : npmId (pluginId p) = p := by
  obtain ⟨rest, rfl⟩ := (startsWithPrefix_iff p).mp hstart
  rw [npmId_pluginId_prefix_append]
  intro hrest
  have h2 := two_le_countOccurrences PLUGIN_PREFIX.data rest.data (by decide) hrest
  have hdata : (PLUGIN_PREFIX ++ rest).data = PLUGIN_PREFIX.data ++ rest.data := by simp
  unfold prefixOccurrences at honce
  rw [hdata] at honce
  omega

theorem npmId_pluginId_roundtrip_witness :
    StartsWithPrefix "gitbook-plugin-foo" ∧ prefixOccurrences "gitbook-plugin-foo" = 1 ∧
      npmId (pluginId "gitbook-plugin-foo") = "gitbook-plugin-foo" :=
  ⟨(indexOf_zero_iff _).mp (by decide), by decide,
    npmId_pluginId_roundtrip "gitbook-plugin-foo" ((indexOf_zero_iff _).mp (by decide))
      (by decide)⟩

/-- C12, as stated, fails: `gitbook-plugin-gitbook-plugin-foo` begins with the
namespace prefix, yet stripping the prefix and putting it back answers
`gitbook-plugin-foo`. -/
theorem npmId_pluginId_double_prefix :
    StartsWithPrefix "gitbook-plugin-gitbook-plugin-foo" ∧
      pluginId "gitbook-plugin-gitbook-plugin-foo" = "gitbook-plugin-foo" ∧
      npmId (pluginId "gitbook-plugin-gitbook-plugin-foo") = "gitbook-plugin-foo" ∧
      npmId (pluginId "gitbook-plugin-gitbook-plugin-foo")
        ≠ "gitbook-plugin-gitbook-plugin-foo" :=
  ⟨(indexOf_zero_iff _).mp (by decide), by decide, by decide, by decide⟩

/-- C12, amended: for every string `x` that begins with the namespace prefix,
`npmId (pluginId x) = x` holds exactly when what follows the leading prefix,
`pluginId x`, does not begin with the prefix again. -/
theorem npmId_pluginId_of_prefixed (x : String) (hx : StartsWithPrefix x) :
    npmId (pluginId x) = x ↔ ¬ StartsWithPrefix (pluginId x) := by
  obtain ⟨rest, rfl⟩ := (startsWithPrefix_iff x).mp hx
  rw [npmId_pluginId_prefix_append, pluginId_prefix_append]

theorem npmId_pluginId_of_prefixed_witness :
    StartsWithPrefix "gitbook-plugin-foo" ∧
      (npmId (pluginId "gitbook-plugin-foo") = "gitbook-plugin-foo" ↔
        ¬ StartsWithPrefix (pluginId "gitbook-plugin-foo")) :=
  ⟨(indexOf_zero_iff _).mp (by decide),
    npmId_pluginId_of_prefixed "gitbook-plugin-foo" ((indexOf_zero_iff _).mp (by decide))⟩

/-- C13: `validateId x` is true exactly when `x` is non-empty and starts with
the namespace prefix; it is false for the empty string and for every name that
does not start with the prefix, also when the prefix occurs later in the name. -/
theorem validateId_true_iff (x : String) :
    (validateId x = true ↔ x ≠ "" ∧ StartsWithPrefix x) ∧
      validateId "" = false ∧
      (¬ StartsWithPrefix x → validateId x = false) ∧
      (ContainsPrefix x → ¬ StartsWithPrefix x → validateId x = false) := by
  have hnot : ¬ StartsWithPrefix x → validateId x = false := by
    intro h
    cases hv : validateId x with
    | false => rfl
    | true => exact absurd ((validateId_iff x).mp hv).2 h
  exact ⟨validateId_iff x, by decide, hnot, fun _ h => hnot h⟩

theorem validateId_true_iff_witness :
    ContainsPrefix "my-gitbook-plugin-foo" ∧ ¬ StartsWithPrefix "my-gitbook-plugin-foo" ∧
      validateId "my-gitbook-plugin-foo" = false :=
  ⟨by
      have h : indexOf "my-gitbook-plugin-foo" PLUGIN_PREFIX ≠ -1 := by decide
      exact not_not.mp (fun hc => h ((indexOf_absent_iff _).mpr hc)),
    fun hs => absurd ((indexOf_zero_iff _).mpr hs) (by decide),
    (validateId_true_iff "my-gitbook-plugin-foo").2.2.2
      (by
        have h : indexOf "my-gitbook-plugin-foo" PLUGIN_PREFIX ≠ -1 := by decide
        exact not_not.mp (fun hc => h ((indexOf_absent_iff _).mpr hc)))
      (fun hs => absurd ((indexOf_zero_iff _).mpr hs) (by decide))⟩

/-- C14: `npmId name` is `name` unchanged when `name` begins with the namespace
prefix and the prefix followed by `name` otherwise; so its result always
passes `validateId`, and `npmId` is idempotent. -/
theorem npmId_cases (name : String) :
    (StartsWithPrefix name → npmId name = name) ∧
      (¬ StartsWithPrefix name → npmId name = PLUGIN_PREFIX ++ name) ∧
      validateId (npmId name) = true ∧
      npmId (npmId name) = npmId name := by
  have hstart : StartsWithPrefix (npmId name) := by
    by_cases h : StartsWithPrefix name
    · rw [npmId_of_leading name h]; exact h
    · rw [npmId_of_not_startsWith name h]; exact startsWithPrefix_append name
  exact ⟨npmId_of_leading name, npmId_of_not_startsWith name,
    (validateId_iff_startsWith _).mpr hstart, npmId_of_leading _ hstart⟩

theorem npmId_cases_witness :
    (StartsWithPrefix "gitbook-plugin-foo" ∧ npmId "gitbook-plugin-foo" = "gitbook-plugin-foo") ∧
      (¬ StartsWithPrefix "foo" ∧ npmId "foo" = PLUGIN_PREFIX ++ "foo") :=
  ⟨⟨(indexOf_zero_iff _).mp (by decide),
      (npmId_cases "gitbook-plugin-foo").1 ((indexOf_zero_iff _).mp (by decide))⟩,
    ⟨fun hs => absurd ((indexOf_zero_iff _).mpr hs) (by decide),
      (npmId_cases "foo").2.1 (fun hs => absurd ((indexOf_zero_iff _).mpr hs) (by decide))⟩⟩

/-- The search answers the leftmost occurrence: it finds the pattern, and not
later than any position at which the pattern occurs. -/
theorem indexOfFrom_le_occurrence (pat a b : List Char) (i : Nat) :
    indexOfFrom pat (a ++ pat ++ b) i ≠ -1 ∧
      indexOfFrom pat (a ++ pat ++ b) i ≤ (i : Int) + a.length := by
  induction a generalizing i with
  | nil =>
    have hb : pat.isPrefixOf ([] ++ pat ++ b) = true := by
      rw [List.isPrefixOf_iff_prefix, List.nil_append]
      exact List.prefix_append pat b
    cases hs : [] ++ pat ++ b with
    | nil =>
      rw [hs] at hb
      unfold indexOfFrom
      rw [if_pos hb]
      constructor
      · omega
      · simp
    | cons c cs =>
      rw [hs] at hb
      unfold indexOfFrom
      rw [if_pos hb]
      constructor
      · omega
      · simp
  | cons c rest ih =>
    show indexOfFrom pat (c :: (rest ++ pat ++ b)) i ≠ -1 ∧
      indexOfFrom pat (c :: (rest ++ pat ++ b)) i ≤ (i : Int) + (c :: rest).length
    unfold indexOfFrom
    by_cases hb : pat.isPrefixOf (c :: (rest ++ pat ++ b)) = true
    · rw [if_pos hb]
      constructor
      · omega
      · simp only [List.length_cons]; omega
    · rw [if_neg hb]
      obtain ⟨h1, h2⟩ := ih (i + 1)
      refine ⟨h1, ?_⟩
      simp only [List.length_cons]
      push_cast at h2 ⊢
      omega

/-- No occurrence of the namespace prefix in `s` starts before the position
that `indexOf` answers. -/
theorem indexOf_le_occurrence (a b : String) :
    indexOf (a ++ PLUGIN_PREFIX ++ b) PLUGIN_PREFIX ≤ (a.length : Int) := by
  have h := (indexOfFrom_le_occurrence PLUGIN_PREFIX.data a.data b.data 0).2
  have hdata : (a ++ PLUGIN_PREFIX ++ b).data = a.data ++ PLUGIN_PREFIX.data ++ b.data := by
    simp
  have hlen : a.length = a.data.length := rfl
  unfold indexOf
  rw [hdata, hlen]
  omega

/-- C15: `pluginId` removes the leftmost occurrence of the namespace prefix,
wherever it lies: when `s = a ++ PLUGIN_PREFIX ++ b` and no occurrence of the
prefix in `s` starts further left, the result is `a ++ b`, whatever `a` is;
when `s` does not contain the prefix the result is `s`. -/
theorem pluginId_removes_leftmost (s : String) :
    (∀ a b : String, s = a ++ PLUGIN_PREFIX ++ b →
        (∀ a' b' : String, s = a' ++ PLUGIN_PREFIX ++ b' → a.length ≤ a'.length) →
        pluginId s = a ++ b) ∧
      (¬ ContainsPrefix s → pluginId s = s) := by
  constructor
  · intro a b hs hleft
    have hdata : s.data = a.data ++ PLUGIN_PREFIX.data ++ b.data := by
      rw [hs]; simp
    have hleft2 : ∀ a' b' : List Char,
        a.data ++ PLUGIN_PREFIX.data ++ b.data = a' ++ PLUGIN_PREFIX.data ++ b' →
          a.data.length ≤ a'.length := by
      intro a' b' h
      have hs2 : s = (⟨a'⟩ : String) ++ PLUGIN_PREFIX ++ ⟨b'⟩ := by
        apply String.ext
        rw [hdata, h, String.data_append, String.data_append]
      exact hleft ⟨a'⟩ ⟨b'⟩ hs2
    unfold pluginId replace
    apply String.ext
    show replaceFirst PLUGIN_PREFIX.data [] s.data = (a ++ b).data
    rw [hdata, replaceFirst_leftmost _ _ _ _ (by decide) hleft2]
    simp
  · intro h
    unfold pluginId replace
    apply String.ext
    exact replaceFirst_of_absent _ _ _ h

theorem pluginId_removes_leftmost_witness :
    ("my-gitbook-plugin-foo" : String) = "my-" ++ PLUGIN_PREFIX ++ "foo" ∧
      (∀ a' b' : String, ("my-gitbook-plugin-foo" : String) = a' ++ PLUGIN_PREFIX ++ b' →
        ("my-" : String).length ≤ a'.length) ∧
      pluginId "my-gitbook-plugin-foo" = "my-" ++ "foo" := by
  have hleft : ∀ a' b' : String, ("my-gitbook-plugin-foo" : String) = a' ++ PLUGIN_PREFIX ++ b' →
      ("my-" : String).length ≤ a'.length := by
    intro a' b' h
    have hle := indexOf_le_occurrence a' b'
    rw [← h] at hle
    have hidx : indexOf "my-gitbook-plugin-foo" PLUGIN_PREFIX = 3 := by decide
    rw [hidx] at hle
    have h3 : ("my-" : String).length = 3 := by decide
    rw [h3]
    omega
  exact ⟨by decide, hleft,
    (pluginId_removes_leftmost "my-gitbook-plugin-foo").1 "my-" "foo" (by decide) hleft⟩

/-- C19: an accepted package name `p` is the namespace prefix followed by
`pluginId p`; so `pluginId` is injective on accepted package names, and two
recorded nodes of a tree whose records carry the same name have the same
package name. -/
theorem pluginId_injective_on_accepted :
    (∀ p : String, validateId p = true → p = PLUGIN_PREFIX ++ pluginId p) ∧
      (∀ p q : String, validateId p = true → validateId q = true →
        pluginId p = pluginId q → p = q) ∧
      (∀ (data pkg1 pkg2 : Pkg) (path1 path2 : List Nat),
        data.nodeAt path1 = some pkg1 → data.nodeAt path2 = some pkg2 →
        admitted data path1 = true → admitted data path2 = true →
        pkg1.record.name = pkg2.record.name → pkg1.name = pkg2.name) := by
  have hinj : ∀ p q : String, validateId p = true → validateId q = true →
      pluginId p = pluginId q → p = q := by
    intro p q hp hq h
    calc p = PLUGIN_PREFIX ++ pluginId p := eq_prefix_append_pluginId p hp
      _ = PLUGIN_PREFIX ++ pluginId q := by rw [h]
      _ = q := (eq_prefix_append_pluginId q hq).symm
  refine ⟨eq_prefix_append_pluginId, hinj, ?_⟩
  intro data pkg1 pkg2 path1 path2 h1 h2 ha1 ha2 hname
  have hv : ∀ (pkg : Pkg) (path : List Nat), data.nodeAt path = some pkg →
      admitted data path = true → validateId pkg.name = true := by
    intro pkg path hnode hadm
    unfold admitted admittedFrom at hadm
    have hplug := (Bool.and_eq_true _ _ ▸ hadm).1
    unfold isPluginAt at hplug
    rw [hnode] at hplug
    exact hplug
  have hrec : ∀ pkg : Pkg, pkg.record.name = pluginId pkg.name := by
    intro pkg
    cases pkg
    rfl
  rw [hrec, hrec] at hname
  exact hinj _ _ (hv pkg1 path1 h1 ha1) (hv pkg2 path2 h2 ha2) hname

theorem pluginId_injective_on_accepted_witness :
    validateId "gitbook-plugin-foo" = true ∧
      ("gitbook-plugin-foo" : String) = PLUGIN_PREFIX ++ pluginId "gitbook-plugin-foo" :=
  ⟨by decide, pluginId_injective_on_accepted.1 "gitbook-plugin-foo" (by decide)⟩

/-! ## Order of enumeration in the resolver -/

/-- No accepted key of the answer is higher than the selected version. -/
theorem selectVersion_some_maximal (satisfies : String → Bool)
    (lt : String → String → Bool) (versions : List (String × Declaration)) (v : String)
    (hasym : ∀ a b, lt a b = true → lt b a = false)
    (hneg : ∀ a b c, lt a b = false → lt b c = false → lt a c = false)
    (h : selectVersion satisfies lt versions = some v) (w : String) (d : Declaration)
    (hw : (w, d) ∈ versions) (hacc : Accepted satisfies d) : lt v w = false := by
  obtain ⟨c, hhead, rfl⟩ := (selectVersion_eq_some_iff satisfies lt versions _).mp h
  have hpw := pairwise_arraySort lt hasym hneg
    ((versions.map toCandidate).filter (keepCandidate satisfies))
  have hin : toCandidate (w, d) ∈ arraySort (compareCandidates lt)
      ((versions.map toCandidate).filter (keepCandidate satisfies)) := by
    rw [mem_arraySort, mem_survivors_iff]
    exact ⟨d, hw, hacc, rfl⟩
  cases hsorted : arraySort (compareCandidates lt)
      ((versions.map toCandidate).filter (keepCandidate satisfies)) with
  | nil => rw [hsorted] at hhead; simp at hhead
  | cons c0 tail =>
    rw [hsorted] at hhead hpw hin
    simp only [List.head?_cons, Option.some.injEq] at hhead
    subst hhead
    rcases List.mem_cons.mp hin with heq | htail
    · have hv : c0.version = w := by rw [← heq]; rfl
      rw [hv]
      cases hww : lt w w with
      | false => rfl
      | true => exact absurd (hasym w w hww) (by rw [hww]; decide)
    · exact (List.pairwise_cons.mp hpw).1 _ htail

/-- C16, as stated, fails: `1.0.0+a` and `1.0.0+b` are distinct version
strings of equal precedence, so neither is lower than the other, the comparator
answers `-1` for both orders (each ranks before the other), and the two
enumerations of the same answer resolve to different versions. -/
theorem selectVersion_depends_on_order :
    buildTwins.Perm buildTwinsReversed ∧
      ("1.0.0+a" : String) ≠ "1.0.0+b" ∧
      semverLtBuild "1.0.0+a" "1.0.0+b" = false ∧
      semverLtBuild "1.0.0+b" "1.0.0+a" = false ∧
      compareCandidates semverLtBuild ⟨"1.0.0+a", some "*"⟩ ⟨"1.0.0+b", some "*"⟩ = -1 ∧
      compareCandidates semverLtBuild ⟨"1.0.0+b", some "*"⟩ ⟨"1.0.0+a", some "*"⟩ = -1 ∧
      selectVersion (fun _ => true) semverLtBuild buildTwins ≠
        selectVersion (fun _ => true) semverLtBuild buildTwinsReversed := by
  refine ⟨by decide, by decide, by decide, by decide, by decide, by decide, by decide⟩

/-- C16, amended: when the precedence strictly orders every two distinct keys
of the answer (one of them is lower than the other), the selected version does
not depend on the enumeration: two enumerations of the same pairs resolve to
the same version, or both to NotFound. -/
theorem selectVersion_order_independent (satisfies : String → Bool)
    (lt : String → String → Bool) (versions versions' : List (String × Declaration))
    (hasym : ∀ a b, lt a b = true → lt b a = false)
    (hneg : ∀ a b c, lt a b = false → lt b c = false → lt a c = false)
    (htotal : ∀ v ∈ versions.map Prod.fst, ∀ w ∈ versions.map Prod.fst,
      v ≠ w → lt v w = true ∨ lt w v = true)
    (hperm : versions.Perm versions') :
    selectVersion satisfies lt versions = selectVersion satisfies lt versions' := by
  cases h1 : selectVersion satisfies lt versions with
  | none =>
    symm
    rw [selectVersion_eq_none_iff] at h1 ⊢
    intro p hp
    exact h1 p (hperm.mem_iff.mpr hp)
  | some v =>
    obtain ⟨d, hd, hacc⟩ := selectVersion_some_accepted satisfies lt versions v h1
    cases h2 : selectVersion satisfies lt versions' with
    | none =>
      rw [selectVersion_eq_none_iff] at h2
      exact absurd hacc (h2 (v, d) (hperm.mem_iff.mp hd))
    | some v' =>
      obtain ⟨d', hd', hacc'⟩ := selectVersion_some_accepted satisfies lt versions' v' h2
      have hd'' : (v', d') ∈ versions := hperm.mem_iff.mpr hd'
      have hvv' : lt v v' = false :=
        selectVersion_some_maximal satisfies lt versions v hasym hneg h1 v' d' hd'' hacc'
      have hv'v : lt v' v = false :=
        selectVersion_some_maximal satisfies lt versions' v' hasym hneg h2 v d
          (hperm.mem_iff.mp hd) hacc
      by_cases hne : v = v'
      · rw [hne]
      · have hmem : v ∈ versions.map Prod.fst := List.mem_map.mpr ⟨(v, d), hd, rfl⟩
        have hmem' : v' ∈ versions.map Prod.fst := List.mem_map.mpr ⟨(v', d'), hd'', rfl⟩
        rcases htotal v hmem v' hmem' hne with h | h
        · rw [hvv'] at h; exact absurd h (by decide)
        · rw [hv'v] at h; exact absurd h (by decide)

theorem selectVersion_order_independent_witness :
    (∀ v ∈ ([("1.0.0", ⟨some ⟨some "*"⟩⟩), ("2.0.0", ⟨some ⟨some "*"⟩⟩),
          ("1.5.0", ⟨some ⟨some ">=9.0.0"⟩⟩)] : List (String × Declaration)).map Prod.fst,
        ∀ w ∈ ([("1.0.0", ⟨some ⟨some "*"⟩⟩), ("2.0.0", ⟨some ⟨some "*"⟩⟩),
          ("1.5.0", ⟨some ⟨some ">=9.0.0"⟩⟩)] : List (String × Declaration)).map Prod.fst,
        v ≠ w → semverLt v w = true ∨ semverLt w v = true) ∧
      List.Perm
        ([("1.0.0", ⟨some ⟨some "*"⟩⟩), ("2.0.0", ⟨some ⟨some "*"⟩⟩),
          ("1.5.0", ⟨some ⟨some ">=9.0.0"⟩⟩)] : List (String × Declaration))
        [("1.5.0", ⟨some ⟨some ">=9.0.0"⟩⟩), ("2.0.0", ⟨some ⟨some "*"⟩⟩),
          ("1.0.0", ⟨some ⟨some "*"⟩⟩)] ∧
      selectVersion (fun range => range == "*") semverLt
          [("1.0.0", ⟨some ⟨some "*"⟩⟩), ("2.0.0", ⟨some ⟨some "*"⟩⟩),
            ("1.5.0", ⟨some ⟨some ">=9.0.0"⟩⟩)] =
        selectVersion (fun range => range == "*") semverLt
          [("1.5.0", ⟨some ⟨some ">=9.0.0"⟩⟩), ("2.0.0", ⟨some ⟨some "*"⟩⟩),
            ("1.0.0", ⟨some ⟨some "*"⟩⟩)] :=
  ⟨by decide, by decide,
    selectVersion_order_independent (fun range => range == "*") semverLt
      [("1.0.0", ⟨some ⟨some "*"⟩⟩), ("2.0.0", ⟨some ⟨some "*"⟩⟩),
        ("1.5.0", ⟨some ⟨some ">=9.0.0"⟩⟩)]
      [("1.5.0", ⟨some ⟨some ">=9.0.0"⟩⟩), ("2.0.0", ⟨some ⟨some "*"⟩⟩),
        ("1.0.0", ⟨some ⟨some "*"⟩⟩)]
      semverLt_asymm semverLt_negtrans (by decide) (by decide)⟩

/-! ## Further properties of the installed-set scanner -/

theorem record_name (pkg : Pkg) : pkg.record.name = pluginId pkg.name := by
  cases pkg
  rfl

theorem mem_discovered_iff (data : Pkg) (r : InstalledPlugin) :
    r ∈ discovered data ↔
      ∃ path, path ∈ data.paths ∧ admitted data path = true ∧ recordAt data path = some r := by
  unfold discovered
  rw [List.mem_filterMap]
  constructor
  · rintro ⟨path, hmem, hrec⟩
    obtain ⟨hp, hadm⟩ := List.mem_filter.mp hmem
    exact ⟨path, hp, hadm, hrec⟩
  · rintro ⟨path, hp, hadm, hrec⟩
    exact ⟨path, List.mem_filter.mpr ⟨hp, hadm⟩, hrec⟩

theorem mem_discovered_of_mem_scanTree (data : Pkg) (r : InstalledPlugin)
    (h : r ∈ scanTree data) : r ∈ discovered data := by
  unfold scanTree at h
  rw [uniqByName_eq, onPackage_root] at h
  exact (keepFirstByName_sublist _).subset h

theorem validateId_of_admitted (data pkg : Pkg) (path : List Nat)
    (hnode : data.nodeAt path = some pkg) (hadm : admitted data path = true) :
    validateId pkg.name = true := by
  unfold admitted admittedFrom at hadm
  have hplug := (Bool.and_eq_true _ _ ▸ hadm).1
  unfold isPluginAt at hplug
  rw [hnode] at hplug
  exact hplug

theorem countOccurrences_pos_of_infix (pat s : List Char) (h : pat <:+: s) :
    1 ≤ countOccurrences pat s := by
  obtain ⟨a, b, rfl⟩ := h
  have h1 := countOccurrences_pos pat (pat ++ b) (List.prefix_append pat b)
  have h2 := countOccurrences_append_le pat a (pat ++ b)
  rw [List.append_assoc]
  omega

/-- A string that begins with the pattern and holds it again further on has
at least two occurrences of it. -/
theorem two_le_countOccurrences_of_infix (pat rest : List Char) (hpat : pat ≠ [])
    (h : pat <:+: rest) : 2 ≤ countOccurrences pat (pat ++ rest) := by
  cases pat with
  | nil => exact absurd rfl hpat
  | cons c cs =>
    have hb : (c :: cs).isPrefixOf (c :: (cs ++ rest)) = true :=
      List.isPrefixOf_iff_prefix.mpr (List.prefix_append (c :: cs) rest)
    show 2 ≤ countOccurrences (c :: cs) (c :: (cs ++ rest))
    rw [countOccurrences, if_pos hb]
    have h1 := countOccurrences_pos_of_infix (c :: cs) rest h
    have h2 := countOccurrences_append_le (c :: cs) cs rest
    omega

/-- C17, as stated, fails: in `oddNamesTree` the scan answers a record with
the empty name, for the package named exactly like the prefix, and a record
whose name `gitbook-plugin-foo` contains the prefix, for the package whose
name carries the prefix twice. -/
theorem scanTree_odd_names :
    scanTree oddNamesTree =
        [⟨"", "1.0.0", "/book/node_modules/gitbook-plugin-", 1⟩,
         ⟨"gitbook-plugin-foo", "1.0.0",
           "/book/node_modules/gitbook-plugin-gitbook-plugin-foo", 1⟩] ∧
      validateId "gitbook-plugin-" = true ∧
      validateId "gitbook-plugin-gitbook-plugin-foo" = true ∧
      ContainsPrefix "gitbook-plugin-foo" ∧
      ¬ (∀ r ∈ scanTree oddNamesTree, r.name ≠ "" ∧ ¬ ContainsPrefix r.name) := by
  refine ⟨by decide, by decide, by decide, ?_, ?_⟩
  · have h : indexOf "gitbook-plugin-foo" PLUGIN_PREFIX ≠ -1 := by decide
    exact not_not.mp (fun hc => h ((indexOf_absent_iff _).mpr hc))
  · intro h
    exact (h ⟨"", "1.0.0", "/book/node_modules/gitbook-plugin-", 1⟩ (by decide)).1 rfl

/-- C17, amended: every record the scan answers is the record of an admitted
node whose package name is the namespace prefix followed by the record's
name; the name is non-empty unless the package is named exactly like the
prefix, and it does not contain the prefix when the package name contains the
prefix exactly once. -/
theorem scanTree_record_names (data : Pkg) (r : InstalledPlugin) (hr : r ∈ scanTree data) :
    ∃ path pkg, data.nodeAt path = some pkg ∧ admitted data path = true ∧
      r = pkg.record ∧ pkg.name = PLUGIN_PREFIX ++ r.name ∧
      (pkg.name ≠ PLUGIN_PREFIX → r.name ≠ "") ∧
      (prefixOccurrences pkg.name = 1 → ¬ ContainsPrefix r.name) := by
  obtain ⟨path, _, hadm, hrec⟩ :=
    (mem_discovered_iff data r).mp (mem_discovered_of_mem_scanTree data r hr)
  unfold recordAt at hrec
  cases hnode : data.nodeAt path with
  | none => rw [hnode] at hrec; simp at hrec
  | some pkg =>
    rw [hnode] at hrec
    simp only [Option.map_some', Option.some.injEq] at hrec
    have hvalid := validateId_of_admitted data pkg path hnode hadm
    have hname : pkg.name = PLUGIN_PREFIX ++ r.name := by
      rw [← hrec, record_name]
      exact eq_prefix_append_pluginId pkg.name hvalid
    refine ⟨path, pkg, hnode, hadm, hrec.symm, hname, ?_, ?_⟩
    · intro hne hempty
      apply hne
      rw [hname, hempty]
      rfl
    · intro honce hcontains
      have h2 := two_le_countOccurrences_of_infix PLUGIN_PREFIX.data r.name.data
        (by decide) hcontains
      unfold prefixOccurrences at honce
      rw [hname, String.data_append] at honce
      omega

theorem scanTree_record_names_witness :
    (⟨"a", "1.0.0", "/book/node_modules/gitbook-plugin-a", 1⟩ : InstalledPlugin)
        ∈ scanTree prunedTree ∧
      ∃ path pkg, prunedTree.nodeAt path = some pkg ∧ admitted prunedTree path = true ∧
        (⟨"a", "1.0.0", "/book/node_modules/gitbook-plugin-a", 1⟩ : InstalledPlugin)
          = pkg.record ∧
        pkg.name = PLUGIN_PREFIX ++
          (⟨"a", "1.0.0", "/book/node_modules/gitbook-plugin-a", 1⟩ : InstalledPlugin).name ∧
        (pkg.name ≠ PLUGIN_PREFIX →
          (⟨"a", "1.0.0", "/book/node_modules/gitbook-plugin-a", 1⟩ : InstalledPlugin).name
            ≠ "") ∧
        (prefixOccurrences pkg.name = 1 → ¬ ContainsPrefix
          (⟨"a", "1.0.0", "/book/node_modules/gitbook-plugin-a", 1⟩ : InstalledPlugin).name) :=
  ⟨by decide,
    scanTree_record_names prunedTree ⟨"a", "1.0.0", "/book/node_modules/gitbook-plugin-a", 1⟩
      (by decide)⟩

/-- C18, as stated, fails: the root of `pluginRootTree` has a plugin package
name, and the one record the scan answers is the record of the root itself,
the node at the empty path. -/
theorem scanTree_records_plugin_root :
    validateId pluginRootTree.name = true ∧
      recordAt pluginRootTree [] =
        some ⟨"foo", "1.0.0", "/work/gitbook-plugin-foo", 0⟩ ∧
      scanTree pluginRootTree = [⟨"foo", "1.0.0", "/work/gitbook-plugin-foo", 0⟩] ∧
      ¬ (∀ r ∈ scanTree pluginRootTree,
          ∃ path, path ≠ [] ∧ recordAt pluginRootTree path = some r) := by
  refine ⟨by decide, by decide, by decide, ?_⟩
  intro h
  obtain ⟨path, hne, hrec⟩ :=
    h ⟨"foo", "1.0.0", "/work/gitbook-plugin-foo", 0⟩ (by decide)
  cases path with
  | nil => exact hne rfl
  | cons i rest =>
    cases i with
    | zero =>
      cases rest with
      | nil => revert hrec; decide
      | cons j rest2 => simp [recordAt, Pkg.nodeAt, pluginRootTree, Pkg.dependencies] at hrec
    | succ k => simp [recordAt, Pkg.nodeAt, pluginRootTree, Pkg.dependencies] at hrec

/-- C18, amended: the root is always visited for its dependencies, whatever
its own name is: the walk records the root's own record exactly when the
root's name is a plugin package name, and then the discovery sequences of all
its dependencies. When the root's name is not a plugin package name every
record of the answer comes from a proper descendant of the root; when it is,
the root's record is the first record of the answer. -/
theorem scanTree_root_visit (data : Pkg) :
    onPackage data true [] =
        (if validateId data.name = true then [data.record] else []) ++
          recordedAll data.dependencies ∧
      (validateId data.name = false → ∀ r ∈ scanTree data,
        ∃ path, path ≠ [] ∧ admitted data path = true ∧ recordAt data path = some r) ∧
      (validateId data.name = true → (scanTree data).head? = some data.record) := by
  have hwalk : onPackage data true [] =
      (if validateId data.name = true then [data.record] else []) ++
        recordedAll data.dependencies := by
    cases data with
    | mk name version realPath depth dependencies =>
      rw [onPackage_eq, recordedFrom_mk, List.nil_append]
      simp only [Bool.true_or, if_true, Pkg.name, Pkg.record, Pkg.dependencies]
  refine ⟨hwalk, ?_, ?_⟩
  · intro hroot r hr
    obtain ⟨path, _, hadm, hrec⟩ :=
      (mem_discovered_iff data r).mp (mem_discovered_of_mem_scanTree data r hr)
    refine ⟨path, ?_, hadm, hrec⟩
    intro hnil
    rw [hnil] at hadm
    unfold admitted at hadm
    rw [admittedFrom_nil, hroot] at hadm
    exact absurd hadm (by decide)
  · intro hroot
    unfold scanTree
    rw [uniqByName_eq, hwalk, if_pos hroot]
    rfl

theorem scanTree_root_visit_witness :
    validateId prunedTree.name = false ∧
      (⟨"a", "1.0.0", "/book/node_modules/gitbook-plugin-a", 1⟩ : InstalledPlugin)
        ∈ scanTree prunedTree ∧
      ∃ path, path ≠ [] ∧ admitted prunedTree path = true ∧
        recordAt prunedTree path = some ⟨"a", "1.0.0", "/book/node_modules/gitbook-plugin-a", 1⟩ :=
  ⟨by decide, by decide,
    (scanTree_root_visit prunedTree).2.1 (by decide)
      ⟨"a", "1.0.0", "/book/node_modules/gitbook-plugin-a", 1⟩ (by decide)⟩

/-! ## Further properties of the composed listing -/

theorem mem_map_name_keepFirstByName (xs : List InstalledPlugin) (n : String) :
    n ∈ (keepFirstByName xs).map InstalledPlugin.name ↔ n ∈ xs.map InstalledPlugin.name := by
  constructor
  · intro h
    obtain ⟨r, hr, hn⟩ := List.mem_map.mp h
    exact List.mem_map.mpr ⟨r, (keepFirstByName_sublist xs).subset hr, hn⟩
  · intro h
    obtain ⟨r, hr, hn⟩ := List.mem_map.mp h
    have hsome : (xs.find? (fun x => x.name == n)).isSome = true := by
      rw [List.find?_isSome]
      exact ⟨r, hr, by simp [hn]⟩
    rw [← keepFirstByName_find? xs n, List.find?_isSome] at hsome
    obtain ⟨x, hx, hxn⟩ := hsome
    exact List.mem_map.mpr ⟨x, hx, by simpa using hxn⟩

/-- The spread callback of `listPlugins` loses and invents nothing: its names
are the names of the two inputs, none twice, and each of its records is a
record of one of the inputs. -/
theorem mergePlugins_union (defaultPlugins plugins : List InstalledPlugin) :
    (∀ n : String, n ∈ (mergePlugins defaultPlugins plugins).map InstalledPlugin.name ↔
        n ∈ plugins.map InstalledPlugin.name ∨ n ∈ defaultPlugins.map InstalledPlugin.name) ∧
      ((mergePlugins defaultPlugins plugins).map InstalledPlugin.name).Nodup ∧
      (∀ r ∈ mergePlugins defaultPlugins plugins, r ∈ plugins ∨ r ∈ defaultPlugins) := by
  have hmerge : mergePlugins defaultPlugins plugins
      = keepFirstByName (plugins ++ defaultPlugins) := by
    unfold mergePlugins
    rw [uniqByName_eq]
  rw [hmerge]
  refine ⟨?_, keepFirstByName_nodup _, ?_⟩
  · intro n
    rw [mem_map_name_keepFirstByName, List.map_append, List.mem_append]
  · intro r hr
    exact List.mem_append.mp ((keepFirstByName_sublist _).subset hr)

/-! ## The composed listing of a book -/

theorem scanTree_names_nodup (data : Pkg) :
    ((scanTree data).map InstalledPlugin.name).Nodup := by
  unfold scanTree
  rw [uniqByName_eq]
  exact keepFirstByName_nodup _

/-- A successful listing of a folder is the scan of the tree read there. -/
theorem listInstalled_ok (readInstalled : String → Except JSError Pkg) (folder : String)
    (found : List InstalledPlugin)
    (h : listInstalled readInstalled folder = Except.ok found) :
    ∃ data, readInstalled folder = Except.ok data ∧ found = scanTree data := by
  unfold listInstalled at h
  cases hread : readInstalled folder with
  | error e => rw [hread] at h; simp at h
  | ok data =>
    rw [hread] at h
    simp only [Except.ok.injEq] at h
    exact ⟨data, rfl, h.symm⟩

/-- When both scans succeed, `listPlugins` succeeds with the spread callback
applied to the scan of the defaults directory, as `defaultPlugins`, and the
scan of the book root, as `plugins`. -/
theorem listPlugins_ok (readInstalled : String → Except JSError Pkg) (gitbookRoot : String)
    (book : Book) (defaultPlugins plugins : List InstalledPlugin)
    (hdef : listInstalled readInstalled gitbookRoot = Except.ok defaultPlugins)
    (hproj : listInstalled readInstalled book.root = Except.ok plugins) :
    listPlugins readInstalled gitbookRoot book =
      Except.ok (mergePlugins defaultPlugins plugins) := by
  unfold listPlugins
  rw [hdef, hproj]

/-- C9: for every pair of scan results, `defaultPlugins` of the bundled
defaults directory and `plugins` of the book root, `listPlugins` answers the
project records followed by the defaults records, deduplicated by name keeping
the first occurrence: for every project record the answer holds exactly one
record of its name, and it is that project record; a record of the answer that
is not a project record is a defaults record whose name no project record has;
with `foo` 2.0.0 in the project and `foo` 1.0.0 in the defaults the answer
holds exactly one `foo`, of version 2.0.0. -/
theorem listPlugins_project_first (readInstalled : String → Except JSError Pkg)
    (gitbookRoot : String) (book : Book) (defaultPlugins plugins : List InstalledPlugin)
    (hdef : listInstalled readInstalled gitbookRoot = Except.ok defaultPlugins)
    (hproj : listInstalled readInstalled book.root = Except.ok plugins) :
    (∃ result, listPlugins readInstalled gitbookRoot book = Except.ok result ∧
      result = keepFirstByName (plugins ++ defaultPlugins) ∧
      (∀ r ∈ plugins, result.filter (fun p => p.name == r.name) = [r]) ∧
      (∀ r ∈ result, r ∈ plugins ∨ (r ∈ defaultPlugins ∧ ∀ p ∈ plugins, p.name ≠ r.name))) ∧
      ∃ listing, listPlugins twoRoots "/gitbook" ⟨"/book"⟩ = Except.ok listing ∧
        listing.filter (fun p => p.name == "foo") =
          [⟨"foo", "2.0.0", "/book/node_modules/gitbook-plugin-foo", 1⟩] := by
  refine ⟨?_, ⟨_, rfl, by decide⟩⟩
  obtain ⟨hmerge, hmine, hrest, _⟩ := mergePlugins_keeps_project defaultPlugins plugins
  obtain ⟨data, _, hscan⟩ := listInstalled_ok readInstalled book.root plugins hproj
  have hnodup : (plugins.map InstalledPlugin.name).Nodup := by
    rw [hscan]
    exact scanTree_names_nodup data
  refine ⟨mergePlugins defaultPlugins plugins,
    listPlugins_ok readInstalled gitbookRoot book defaultPlugins plugins hdef hproj,
    hmerge, ?_, hrest⟩
  intro r hr
  obtain ⟨mine, hfind, hfilter⟩ := hmine r hr
  have hmem : mine ∈ plugins := List.mem_of_find?_eq_some hfind
  have hname : mine.name = r.name := by
    have := List.find?_some hfind
    simpa using this
  have heq : mine = r := List.inj_on_of_nodup_map hnodup hmem hr hname
  rw [hfilter, heq]

theorem listPlugins_project_first_witness :
    listInstalled twoRoots "/gitbook" = Except.ok defaultsRecords ∧
      listInstalled twoRoots (⟨"/book"⟩ : Book).root = Except.ok projectRecords ∧
      ∃ result, listPlugins twoRoots "/gitbook" ⟨"/book"⟩ = Except.ok result ∧
        result = keepFirstByName (projectRecords ++ defaultsRecords) ∧
        (∀ r ∈ projectRecords, result.filter (fun p => p.name == r.name) = [r]) ∧
        (∀ r ∈ result, r ∈ projectRecords ∨
          (r ∈ defaultsRecords ∧ ∀ p ∈ projectRecords, p.name ≠ r.name)) :=
  ⟨rfl, rfl,
    (listPlugins_project_first twoRoots "/gitbook" ⟨"/book"⟩ defaultsRecords projectRecords
      rfl rfl).1⟩

/-- C20: for every pair of scan results, `defaultPlugins` of the bundled
defaults directory and `plugins` of the book root, the listing `listPlugins`
answers loses and invents nothing: a name occurs in it exactly when it occurs
in the project scan or in the defaults scan, no name occurs twice, and every
record of it is one of the records of the two scans, unchanged. -/
theorem listPlugins_names (readInstalled : String → Except JSError Pkg)
    (gitbookRoot : String) (book : Book) (defaultPlugins plugins : List InstalledPlugin)
    (hdef : listInstalled readInstalled gitbookRoot = Except.ok defaultPlugins)
    (hproj : listInstalled readInstalled book.root = Except.ok plugins) :
    ∃ result, listPlugins readInstalled gitbookRoot book = Except.ok result ∧
      (∀ n : String, n ∈ result.map InstalledPlugin.name ↔
        n ∈ plugins.map InstalledPlugin.name ∨ n ∈ defaultPlugins.map InstalledPlugin.name) ∧
      (result.map InstalledPlugin.name).Nodup ∧
      (∀ r ∈ result, r ∈ plugins ∨ r ∈ defaultPlugins) :=
  ⟨mergePlugins defaultPlugins plugins,
    listPlugins_ok readInstalled gitbookRoot book defaultPlugins plugins hdef hproj,
    mergePlugins_union defaultPlugins plugins⟩

theorem listPlugins_names_witness :
    listInstalled twoRoots "/gitbook" = Except.ok defaultsRecords ∧
      listInstalled twoRoots (⟨"/book"⟩ : Book).root = Except.ok projectRecords ∧
      ∃ result, listPlugins twoRoots "/gitbook" ⟨"/book"⟩ = Except.ok result ∧
        (∀ n : String, n ∈ result.map InstalledPlugin.name ↔
          n ∈ projectRecords.map InstalledPlugin.name ∨
            n ∈ defaultsRecords.map InstalledPlugin.name) ∧
        (result.map InstalledPlugin.name).Nodup ∧
        (∀ r ∈ result, r ∈ projectRecords ∨ r ∈ defaultsRecords) :=
  ⟨rfl, rfl,
    listPlugins_names twoRoots "/gitbook" ⟨"/book"⟩ defaultsRecords projectRecords rfl rfl⟩

end Registry
